import Mathlib

/-!
Verification of the two reasoning engines of this repository:
the 3x3 tic-tac-toe adversarial search (`tictactoe.py`) and the
minesweeper knowledge-base inference engine (`minesweeper.py`).
Each definition is a shallow embedding of the corresponding Python
function; theorems settle the specification claims.
-/

namespace TicTacToe

/-- A board cell: `EMPTY = None`, `X = "X"`, `O = "O"` in the source. -/
inductive Cell where
  | Empty : Cell
  | X : Cell
  | O : Cell
deriving DecidableEq, Repr

instance : Fintype Cell :=
  ⟨⟨{Cell.Empty, Cell.X, Cell.O}, by decide⟩, by intro x; cases x <;> decide⟩

/-- A board is a list of rows, as in the Python list-of-lists representation. -/
abbrev Board := List (List Cell)

/-- `initial_state()`: the empty 3x3 board. -/
def initial_state : Board :=
  [[Cell.Empty, Cell.Empty, Cell.Empty],
   [Cell.Empty, Cell.Empty, Cell.Empty],
   [Cell.Empty, Cell.Empty, Cell.Empty]]

/-- Number of cells on the board equal to `c` (`row.count` summed over rows). -/
def countCell (b : Board) (c : Cell) : Nat :=
  (b.map (fun row => row.count c)).sum

/-- `player(board)`: O if strictly more X marks than O marks, else X. -/
def player (b : Board) : Cell :=
  if countCell b Cell.X > countCell b Cell.O then Cell.O else Cell.X

/-- Actions contributed by a single row, scanning cells left to right. -/
def rowActions (i : Nat) : Nat → List Cell → List (Nat × Nat)
  | _, [] => []
  | j, c :: cs =>
      (if c = Cell.Empty then [(i, j)] else []) ++ rowActions i (j + 1) cs

/-- Actions contributed by the rows from index `i` on. -/
def actionsAux : Nat → Board → List (Nat × Nat)
  | _, [] => []
  | i, row :: rest => rowActions i 0 row ++ actionsAux (i + 1) rest

/-- `actions(board)`: all coordinates of Empty cells, in row-major order.
The Python function returns a set; the embedding fixes one enumeration
order, which only resolves the tie-breaks the source leaves unspecified. -/
def actions (b : Board) : List (Nat × Nat) :=
  actionsAux 0 b

/-- Write mark `m` at row `i`, column `j` (no-op when out of range),
modelling `new_board[i][j] = move` on the copied board. -/
def setBoard : Board → Nat → Nat → Cell → Board
  | [], _, _, _ => []
  | row :: rest, 0, j, m => row.set j m :: rest
  | row :: rest, Nat.succ i, j, m => row :: setBoard rest i j m

/-- The board produced by a legal move: cell `(i, j)` set to the mover's mark. -/
def result_board (b : Board) (a : Nat × Nat) : Board :=
  setBoard b a.1 a.2 (player b)

/-- Error kinds of `result`: the explicit `raise IndexError` for negative
coordinates and the `IndexError` Python itself raises on an index past the
end of the list are both out-of-bounds errors (`IndexError`); the explicit
`raise ValueError` for an occupied cell is the invalid-move error. -/
inductive MoveError where
  | outOfBounds : MoveError
  | invalidMove : MoveError
deriving DecidableEq, Repr

/-- `result(board, action)` with integer coordinates: rejects negative
coordinates explicitly; indexing past a list end raises the same
`IndexError`; an occupied target raises `ValueError`; otherwise returns
the updated copy of the board. -/
def result (b : Board) (a : Int × Int) : Except MoveError Board :=
  if a.1 < 0 ∨ a.2 < 0 then .error .outOfBounds
  else
    match b[a.1.toNat]? with
    | none => .error .outOfBounds
    | some row =>
      match row[a.2.toNat]? with
      | none => .error .outOfBounds
      | some c =>
        if c ≠ Cell.Empty then .error .invalidMove
        else .ok (setBoard b a.1.toNat a.2.toNat (player b))

/-- One line check of `winner`: the Python code collects the three cells
into a set and reports a winner when the set is a singleton not containing
EMPTY; popping the singleton returns that cell. -/
def lineWinner (a b c : Cell) : Option Cell :=
  let s := ([a, b, c]).dedup
  if s.length = 1 ∧ ¬ s.contains Cell.Empty then s.head? else none

/-- `winner(board)` on a 3x3 board: rows are checked first (row by row,
returning inside the loop), then columns, then the main diagonal, then the
anti-diagonal, exactly as the incremental set bookkeeping of the source
resolves on a 3x3 board. Malformed boards yield no winner. -/
def winner (b : Board) : Option Cell :=
  match b with
  | [[a0, a1, a2], [b0, b1, b2], [c0, c1, c2]] =>
    (lineWinner a0 a1 a2).orElse fun _ =>
    (lineWinner b0 b1 b2).orElse fun _ =>
    (lineWinner c0 c1 c2).orElse fun _ =>
    (lineWinner a0 b0 c0).orElse fun _ =>
    (lineWinner a1 b1 c1).orElse fun _ =>
    (lineWinner a2 b2 c2).orElse fun _ =>
    (lineWinner a0 b1 c2).orElse fun _ =>
    (lineWinner a2 b1 c0)
  | _ => none

/-- `terminal(board)`: over when there is a winner, or no action remains. -/
def terminal (b : Board) : Bool :=
  match winner b with
  | none => actions b = []
  | some _ => true

/-- `utility(board)`: 1 when X won, -1 when O won, 0 otherwise. -/
def utility (b : Board) : Int :=
  match winner b with
  | some Cell.X => 1
  | some Cell.O => -1
  | _ => 0

/-- Number of Empty cells of the board (the recursion measure of minimax). -/
def emptyCount (b : Board) : Nat :=
  (b.map (fun row => row.count Cell.Empty)).sum

theorem player_ne_empty (b : Board) : player b ≠ Cell.Empty := by
  unfold player
  split <;> simp

theorem rowActions_mem {p : Nat × Nat} {i : Nat} :
    ∀ (j : Nat) (row : List Cell), p ∈ rowActions i j row →
      p.1 = i ∧ j ≤ p.2 ∧ row[p.2 - j]? = some Cell.Empty := by
  intro j row
  induction row generalizing j with
  | nil => simp [rowActions]
  | cons c cs ih =>
    intro hp
    simp only [rowActions, List.mem_append] at hp
    rcases hp with hp | hp
    · by_cases hc : c = Cell.Empty
      · simp [hc] at hp
        subst hp
        simp [hc]
      · simp [hc] at hp
    · obtain ⟨h1, h2, h3⟩ := ih (j + 1) hp
      refine ⟨h1, by omega, ?_⟩
      have hj : p.2 - j = (p.2 - (j + 1)) + 1 := by omega
      rw [hj]
      simpa using h3

theorem actionsAux_mem {p : Nat × Nat} :
    ∀ (i : Nat) (b : Board), p ∈ actionsAux i b →
      i ≤ p.1 ∧ ∃ row, b[p.1 - i]? = some row ∧
        row[p.2]? = some Cell.Empty := by
  intro i b
  induction b generalizing i with
  | nil => simp [actionsAux]
  | cons row rest ih =>
    intro hp
    simp only [actionsAux, List.mem_append] at hp
    rcases hp with hp | hp
    · obtain ⟨h1, h2, h3⟩ := rowActions_mem 0 row hp
      subst h1
      simpa using h3
    · obtain ⟨h1, row', h2, h3⟩ := ih (i + 1) hp
      refine ⟨by omega, row', ?_, h3⟩
      have hi : p.1 - i = (p.1 - (i + 1)) + 1 := by omega
      rw [hi]
      simpa using h2

theorem actions_mem {p : Nat × Nat} {b : Board} (hp : p ∈ actions b) :
    ∃ row, b[p.1]? = some row ∧ row[p.2]? = some Cell.Empty := by
  obtain ⟨_, row, h2, h3⟩ := actionsAux_mem 0 b hp
  exact ⟨row, by simpa using h2, h3⟩

theorem count_set_lt {m : Cell} (hm : m ≠ Cell.Empty) :
    ∀ (j : Nat) (row : List Cell), row[j]? = some Cell.Empty →
      (row.set j m).count Cell.Empty < row.count Cell.Empty := by
  intro j row
  induction row generalizing j with
  | nil => simp
  | cons c cs ih =>
    intro hget
    cases j with
    | zero =>
      simp at hget
      subst hget
      simp [List.count_cons, hm]
    | succ j =>
      simp at hget
      have := ih j hget
      simp only [List.set, List.count_cons]
      omega

theorem emptyCount_setBoard_lt {m : Cell} (hm : m ≠ Cell.Empty) :
    ∀ (i : Nat) (b : Board) {row : List Cell} {j : Nat},
      b[i]? = some row → row[j]? = some Cell.Empty →
      emptyCount (setBoard b i j m) < emptyCount b := by
  intro i b
  induction b generalizing i with
  | nil => simp
  | cons r rest ih =>
    intro row j hget hrow
    cases i with
    | zero =>
      simp at hget
      subst hget
      have := count_set_lt hm j _ hrow
      simp only [setBoard, emptyCount, List.map_cons, List.sum_cons]
      omega
    | succ i =>
      simp at hget
      have := ih i hget hrow
      simp only [setBoard, emptyCount, List.map_cons, List.sum_cons] at *
      omega

theorem emptyCount_result_lt {b : Board} {a : Nat × Nat}
    (ha : a ∈ actions b) : emptyCount (result_board b a) < emptyCount b := by
  obtain ⟨row, h1, h2⟩ := actions_mem ha
  exact emptyCount_setBoard_lt (player_ne_empty b) a.1 b h1 h2

mutual

/-- `max_value(board)`: utility on a terminal board, otherwise the fold of
`max` over the opponent values of all successor boards. The fold starts at
-2, which acts exactly as the source's `-math.inf` does since every
recursive value lies in [-1, 1]. -/
def max_value (b : Board) : Int :=
  if terminal b then utility b
  else ((actions b).attach.map
    (fun a => min_value (result_board b a.1))).foldl max (-2)
termination_by emptyCount b
decreasing_by exact emptyCount_result_lt a.2

/-- `min_value(board)`: utility on a terminal board, otherwise the fold of
`min` over the opponent values of all successor boards, starting at 2
(standing for `math.inf`, see `max_value`). -/
def min_value (b : Board) : Int :=
  if terminal b then utility b
  else ((actions b).attach.map
    (fun a => max_value (result_board b a.1))).foldl min 2
termination_by emptyCount b
decreasing_by exact emptyCount_result_lt a.2

end

/-- Python `max(iterable, key=f)`: the first element of the list whose key
is maximal (a later element replaces the current best only when its key is
strictly greater); `none` on an empty list. -/
def maxByKey (f : α → Int) : List α → Option α
  | [] => none
  | x :: xs => some (xs.foldl (fun best y => if f best < f y then y else best) x)

/-- Python `min(iterable, key=f)`, the mirror image of `maxByKey`. -/
def minByKey (f : α → Int) : List α → Option α
  | [] => none
  | x :: xs => some (xs.foldl (fun best y => if f y < f best then y else best) x)

/-- `minimax(board)`: `None` on a terminal board; otherwise the action with
the best value for the side to move among all legal actions. -/
def minimax (b : Board) : Option (Nat × Nat) :=
  if terminal b then none
  else if player b = Cell.X then
    maxByKey (fun a => min_value (result_board b a)) (actions b)
  else
    minByKey (fun a => max_value (result_board b a)) (actions b)

/-- Boards reachable from the initial state by legal moves. -/
inductive TReachable : Board → Prop where
  | init : TReachable initial_state
  | step {b : Board} {a : Nat × Nat} :
      TReachable b → a ∈ actions b → TReachable (result_board b a)

theorem terminal_eq_false_iff {b : Board} :
    terminal b = false ↔ winner b = none ∧ actions b ≠ [] := by
  unfold terminal
  rcases h : winner b with _ | c <;> simp

theorem utility_bounds (b : Board) : -1 ≤ utility b ∧ utility b ≤ 1 := by
  unfold utility
  rcases winner b with _ | c
  · simp
  · cases c <;> simp

theorem foldl_max_le {l : List Int} {bound : Int} :
    ∀ {init : Int}, init ≤ bound → (∀ x ∈ l, x ≤ bound) →
      l.foldl max init ≤ bound := by
  induction l with
  | nil => intro init hi _; simpa using hi
  | cons y ys ih =>
    intro init hi h
    simp only [List.foldl_cons]
    exact ih (max_le hi (h y (by simp))) (fun x hx => h x (by simp [hx]))

theorem init_le_foldl_max :
    ∀ (l : List Int) (init : Int), init ≤ l.foldl max init := by
  intro l
  induction l with
  | nil => simp
  | cons y ys ih =>
    intro init
    simp only [List.foldl_cons]
    exact le_trans (le_max_left _ _) (ih (max init y))

theorem foldl_min_le_init :
    ∀ (l : List Int) (init : Int), l.foldl min init ≤ init := by
  intro l
  induction l with
  | nil => simp
  | cons y ys ih =>
    intro init
    simp only [List.foldl_cons]
    exact le_trans (ih (min init y)) (min_le_left _ _)

theorem le_foldl_max_mem {l : List Int} {x : Int} (hx : x ∈ l) :
    ∀ {init : Int}, x ≤ l.foldl max init := by
  induction l with
  | nil => simp at hx
  | cons y ys ih =>
    intro init
    simp only [List.foldl_cons]
    rcases List.mem_cons.mp hx with rfl | hx
    · exact le_trans (le_max_right _ _) (init_le_foldl_max ys (max init x))
    · exact ih hx

theorem le_foldl_min_mem {l : List Int} {x : Int} (hx : x ∈ l) :
    ∀ {init : Int}, l.foldl min init ≤ x := by
  induction l with
  | nil => simp at hx
  | cons y ys ih =>
    intro init
    simp only [List.foldl_cons]
    rcases List.mem_cons.mp hx with rfl | hx
    · exact le_trans (foldl_min_le_init ys (min init x)) (min_le_right _ _)
    · exact ih hx

theorem foldl_min_ge {l : List Int} {bound : Int} :
    ∀ {init : Int}, bound ≤ init → (∀ x ∈ l, bound ≤ x) →
      bound ≤ l.foldl min init := by
  induction l with
  | nil => intro init hi _; simpa using hi
  | cons y ys ih =>
    intro init hi h
    simp only [List.foldl_cons]
    exact ih (le_min hi (h y (by simp))) (fun x hx => h x (by simp [hx]))

theorem foldl_max_mem_cons :
    ∀ (l : List Int) (init : Int), l.foldl max init ∈ init :: l := by
  intro l
  induction l with
  | nil => simp
  | cons y ys ih =>
    intro init
    simp only [List.foldl_cons]
    rcases max_choice init y with h | h <;>
      rcases List.mem_cons.mp (ih (max init y)) with h2 | h2 <;>
      simp [h2, h] at * <;> simp_all

theorem foldl_min_mem_cons :
    ∀ (l : List Int) (init : Int), l.foldl min init ∈ init :: l := by
  intro l
  induction l with
  | nil => simp
  | cons y ys ih =>
    intro init
    simp only [List.foldl_cons]
    rcases min_choice init y with h | h <;>
      rcases List.mem_cons.mp (ih (min init y)) with h2 | h2 <;>
      simp [h2, h] at * <;> simp_all

theorem foldl_max_mem {l : List Int} {init : Int}
    (h : ∀ x ∈ l, init < x) (hne : l ≠ []) : l.foldl max init ∈ l := by
  rcases List.mem_cons.mp (foldl_max_mem_cons l init) with h1 | h1
  · rcases l with _ | ⟨y, ys⟩
    · simp at hne
    · have := @le_foldl_max_mem (y :: ys) y (by simp) init
      rw [h1] at this
      exact absurd this (not_le.mpr (h y (by simp)))
  · exact h1

theorem foldl_min_mem {l : List Int} {init : Int}
    (h : ∀ x ∈ l, x < init) (hne : l ≠ []) : l.foldl min init ∈ l := by
  rcases List.mem_cons.mp (foldl_min_mem_cons l init) with h1 | h1
  · rcases l with _ | ⟨y, ys⟩
    · simp at hne
    · have := @le_foldl_min_mem (y :: ys) y (by simp) init
      rw [h1] at this
      exact absurd this (not_le.mpr (h y (by simp)))
  · exact h1

theorem actions_ne_nil_of_pos {b : Board} (h : actions b ≠ []) :
    0 < emptyCount b := by
  rcases hl : actions b with _ | ⟨a, rest⟩
  · exact absurd hl h
  · have : a ∈ actions b := by rw [hl]; simp
    exact lt_of_le_of_lt (Nat.zero_le _) (emptyCount_result_lt this)

theorem terminal_of_actions_nil {b : Board} (h : actions b = []) :
    terminal b = true := by
  unfold terminal
  rcases winner b with _ | c <;> simp [h]

theorem terminal_of_winner {b : Board} {c : Cell} (h : winner b = some c) :
    terminal b = true := by
  unfold terminal
  rw [h]

theorem max_value_terminal {b : Board} (ht : terminal b = true) :
    max_value b = utility b := by
  rw [max_value, if_pos ht]

theorem min_value_terminal {b : Board} (ht : terminal b = true) :
    min_value b = utility b := by
  rw [min_value, if_pos ht]

theorem max_value_eq_fold {b : Board} (ht : terminal b = false) :
    max_value b =
      ((actions b).map (fun a => min_value (result_board b a))).foldl max (-2) := by
  rw [max_value, if_neg (by simp [ht]),
    List.attach_map_val (actions b) (fun a => min_value (result_board b a))]

theorem min_value_eq_fold {b : Board} (ht : terminal b = false) :
    min_value b =
      ((actions b).map (fun a => max_value (result_board b a))).foldl min 2 := by
  rw [min_value, if_neg (by simp [ht]),
    List.attach_map_val (actions b) (fun a => max_value (result_board b a))]

theorem values_bound :
    ∀ (n : Nat) (b : Board), emptyCount b ≤ n →
      (-1 ≤ max_value b ∧ max_value b ≤ 1) ∧
      (-1 ≤ min_value b ∧ min_value b ≤ 1) := by
  intro n
  induction n with
  | zero =>
    intro b hb
    have ha : actions b = [] := by
      by_contra hne
      have := actions_ne_nil_of_pos hne
      omega
    have ht := terminal_of_actions_nil ha
    rw [max_value_terminal ht, min_value_terminal ht]
    exact ⟨utility_bounds b, utility_bounds b⟩
  | succ n ih =>
    intro b hb
    by_cases ht : terminal b = true
    · rw [max_value_terminal ht, min_value_terminal ht]
      exact ⟨utility_bounds b, utility_bounds b⟩
    · have ht' : terminal b = false := by simpa using ht
      have hane : actions b ≠ [] := (terminal_eq_false_iff.mp ht').2
      have hbound : ∀ a ∈ actions b,
          (-1 ≤ max_value (result_board b a) ∧ max_value (result_board b a) ≤ 1) ∧
          (-1 ≤ min_value (result_board b a) ∧ min_value (result_board b a) ≤ 1) := by
        intro a ha
        have := emptyCount_result_lt ha
        exact ih (result_board b a) (by omega)
      constructor
      · rw [max_value_eq_fold ht']
        set lm := (actions b).map (fun a => min_value (result_board b a)) with hlm
        have hmemall : ∀ x ∈ lm, -1 ≤ x ∧ x ≤ 1 := by
          intro x hx
          obtain ⟨a, ha, rfl⟩ := List.mem_map.mp hx
          exact (hbound a ha).2
        constructor
        · have hmem : lm.foldl max (-2) ∈ lm :=
            foldl_max_mem
              (fun x hx => by have := (hmemall x hx).1; omega)
              (by simpa [hlm] using hane)
          exact (hmemall _ hmem).1
        · exact foldl_max_le (by omega) (fun x hx => (hmemall x hx).2)
      · rw [min_value_eq_fold ht']
        set lm := (actions b).map (fun a => max_value (result_board b a)) with hlm
        have hmemall : ∀ x ∈ lm, -1 ≤ x ∧ x ≤ 1 := by
          intro x hx
          obtain ⟨a, ha, rfl⟩ := List.mem_map.mp hx
          exact (hbound a ha).1
        constructor
        · exact foldl_min_ge (by omega) (fun x hx => (hmemall x hx).1)
        · have hmem : lm.foldl min 2 ∈ lm :=
            foldl_min_mem
              (fun x hx => by have := (hmemall x hx).2; omega)
              (by simpa [hlm] using hane)
          exact (hmemall _ hmem).2

theorem max_value_bounds (b : Board) : -1 ≤ max_value b ∧ max_value b ≤ 1 :=
  (values_bound (emptyCount b) b le_rfl).1

theorem min_value_bounds (b : Board) : -1 ≤ min_value b ∧ min_value b ≤ 1 :=
  (values_bound (emptyCount b) b le_rfl).2

theorem foldl_best_max {α : Type} (f : α → Int) :
    ∀ (xs : List α) (acc : α),
      (xs.foldl (fun best y => if f best < f y then y else best) acc = acc ∨
        xs.foldl (fun best y => if f best < f y then y else best) acc ∈ xs) ∧
      f acc ≤ f (xs.foldl (fun best y => if f best < f y then y else best) acc) ∧
      ∀ y ∈ xs, f y ≤ f (xs.foldl (fun best y => if f best < f y then y else best) acc) := by
  intro xs
  induction xs with
  | nil => intro acc; simp
  | cons z zs ih =>
    intro acc
    simp only [List.foldl_cons]
    obtain ⟨ihm, ihacc, ihall⟩ := ih (if f acc < f z then z else acc)
    have hacc : f acc ≤ f (if f acc < f z then z else acc) := by
      split <;> simp_all [le_of_lt]
    have hz : f z ≤ f (if f acc < f z then z else acc) := by
      split
      · exact le_rfl
      · omega
    refine ⟨?_, le_trans hacc ihacc, ?_⟩
    · rcases ihm with h | h
      · rw [h]
        split
        · simp
        · simp
      · simp [h]
    · intro y hy
      rcases List.mem_cons.mp hy with rfl | hy
      · exact le_trans hz ihacc
      · exact ihall y hy

theorem foldl_best_min {α : Type} (f : α → Int) :
    ∀ (xs : List α) (acc : α),
      (xs.foldl (fun best y => if f y < f best then y else best) acc = acc ∨
        xs.foldl (fun best y => if f y < f best then y else best) acc ∈ xs) ∧
      f (xs.foldl (fun best y => if f y < f best then y else best) acc) ≤ f acc ∧
      ∀ y ∈ xs, f (xs.foldl (fun best y => if f y < f best then y else best) acc) ≤ f y := by
  intro xs
  induction xs with
  | nil => intro acc; simp
  | cons z zs ih =>
    intro acc
    simp only [List.foldl_cons]
    obtain ⟨ihm, ihacc, ihall⟩ := ih (if f z < f acc then z else acc)
    have hacc : f (if f z < f acc then z else acc) ≤ f acc := by
      split <;> simp_all [le_of_lt]
    have hz : f (if f z < f acc then z else acc) ≤ f z := by
      split
      · exact le_rfl
      · omega
    refine ⟨?_, le_trans ihacc hacc, ?_⟩
    · rcases ihm with h | h
      · rw [h]
        split
        · simp
        · simp
      · simp [h]
    · intro y hy
      rcases List.mem_cons.mp hy with rfl | hy
      · exact le_trans ihacc hz
      · exact ihall y hy

theorem maxByKey_spec {α : Type} {f : α → Int} {l : List α} (hl : l ≠ []) :
    ∃ x, maxByKey f l = some x ∧ x ∈ l ∧ ∀ y ∈ l, f y ≤ f x := by
  rcases l with _ | ⟨z, zs⟩
  · simp at hl
  · obtain ⟨hm, hacc, hall⟩ := foldl_best_max f zs z
    refine ⟨_, rfl, ?_, ?_⟩
    · rcases hm with h | h
      · rw [h]; simp
      · simp [h]
    · intro y hy
      rcases List.mem_cons.mp hy with rfl | hy
      · exact hacc
      · exact hall y hy

theorem minByKey_spec {α : Type} {f : α → Int} {l : List α} (hl : l ≠ []) :
    ∃ x, minByKey f l = some x ∧ x ∈ l ∧ ∀ y ∈ l, f x ≤ f y := by
  rcases l with _ | ⟨z, zs⟩
  · simp at hl
  · obtain ⟨hm, hacc, hall⟩ := foldl_best_min f zs z
    refine ⟨_, rfl, ?_, ?_⟩
    · rcases hm with h | h
      · rw [h]; simp
      · simp [h]
    · intro y hy
      rcases List.mem_cons.mp hy with rfl | hy
      · exact hacc
      · exact hall y hy

theorem player_cases (b : Board) : player b = Cell.X ∨ player b = Cell.O := by
  unfold player
  split <;> simp

theorem min_value_of_X_win {b : Board} {w : Nat × Nat}
    (hw : winner (result_board b w) = some Cell.X) :
    min_value (result_board b w) = 1 := by
  rw [min_value_terminal (terminal_of_winner hw)]
  unfold utility
  rw [hw]

theorem max_value_of_O_win {b : Board} {w : Nat × Nat}
    (hw : winner (result_board b w) = some Cell.O) :
    max_value (result_board b w) = -1 := by
  rw [max_value_terminal (terminal_of_winner hw)]
  unfold utility
  rw [hw]

/-- Claim C1: on every non-terminal 3x3 board reachable from the initial
state, `minimax` returns a legal action whose game-tree value equals the
optimal minimax value for the side to move (it maximizes the eventual
utility when X moves and minimizes it when O moves, and its value is the
value `max_value`/`min_value` assigns to the whole board); when some
action creates an immediate win for the mover, the returned action forces
the win (value 1 for X, -1 for O); and on every terminal board `minimax`
returns the no-move sentinel `none`. -/
theorem C1_minimax_optimal (b : Board) (_hr : TReachable b) :
    (terminal b = true → minimax b = none) ∧
    (terminal b = false →
      ∃ a, minimax b = some a ∧ a ∈ actions b ∧
        ((player b = Cell.X →
            max_value b = min_value (result_board b a) ∧
            ∀ e ∈ actions b,
              min_value (result_board b e) ≤ min_value (result_board b a)) ∧
         (player b = Cell.O →
            min_value b = max_value (result_board b a) ∧
            ∀ e ∈ actions b,
              max_value (result_board b a) ≤ max_value (result_board b e))) ∧
        ((∃ w ∈ actions b, winner (result_board b w) = some (player b)) →
          (player b = Cell.X → min_value (result_board b a) = 1) ∧
          (player b = Cell.O → max_value (result_board b a) = -1))) := by
  clear _hr
  constructor
  · intro ht
    unfold minimax
    rw [if_pos ht]
  · intro ht
    have hane : actions b ≠ [] := (terminal_eq_false_iff.mp ht).2
    rcases player_cases b with hp | hp
    · obtain ⟨a, hmk, hmem, hall⟩ :=
        @maxByKey_spec _ (fun a => min_value (result_board b a)) _ hane
      refine ⟨a, ?_, hmem, ⟨?_, ?_⟩, ?_⟩
      · unfold minimax
        rw [if_neg (by simp [ht]), if_pos hp]
        exact hmk
      · intro _
        constructor
        · rw [max_value_eq_fold ht]
          refine le_antisymm ?_ ?_
          · refine foldl_max_le ?_ ?_
            · have := (min_value_bounds (result_board b a)).1
              omega
            · intro x hx
              obtain ⟨e, he, rfl⟩ := List.mem_map.mp hx
              exact hall e he
          · exact le_foldl_max_mem (List.mem_map_of_mem _ hmem)
        · exact hall
      · intro hpo
        rw [hp] at hpo
        cases hpo
      · intro ⟨w, hwmem, hwin⟩
        rw [hp] at hwin
        constructor
        · intro _
          have h1 : min_value (result_board b w) = 1 := min_value_of_X_win hwin
          have h2 := hall w hwmem
          have h3 := (min_value_bounds (result_board b a)).2
          omega
        · intro hpo
          rw [hp] at hpo
          cases hpo
    · obtain ⟨a, hmk, hmem, hall⟩ :=
        @minByKey_spec _ (fun a => max_value (result_board b a)) _ hane
      refine ⟨a, ?_, hmem, ⟨?_, ?_⟩, ?_⟩
      · unfold minimax
        rw [if_neg (by simp [ht]), if_neg (by simp [hp])]
        exact hmk
      · intro hpx
        rw [hp] at hpx
        cases hpx
      · intro _
        constructor
        · rw [min_value_eq_fold ht]
          refine le_antisymm ?_ ?_
          · exact le_foldl_min_mem (List.mem_map_of_mem _ hmem)
          · refine foldl_min_ge ?_ ?_
            · have := (max_value_bounds (result_board b a)).2
              omega
            · intro x hx
              obtain ⟨e, he, rfl⟩ := List.mem_map.mp hx
              exact hall e he
        · exact hall
      · intro ⟨w, hwmem, hwin⟩
        rw [hp] at hwin
        constructor
        · intro hpx
          rw [hp] at hpx
          cases hpx
        · intro _
          have h1 : max_value (result_board b w) = -1 := max_value_of_O_win hwin
          have h2 := hall w hwmem
          have h3 := (max_value_bounds (result_board b a)).1
          omega

/-- A sample reachable board: X played (0,0) and (0,1), O played (1,0)
and (1,1); X to move with an immediate win at (0,2). -/
def sampleBoard : Board :=
  [[Cell.X, Cell.X, Cell.Empty],
   [Cell.O, Cell.O, Cell.Empty],
   [Cell.Empty, Cell.Empty, Cell.Empty]]

theorem TReachable_of_eq {b b2 : Board} {a : Nat × Nat} (h : TReachable b)
    (ha : a ∈ actions b) (he : result_board b a = b2) : TReachable b2 :=
  he ▸ TReachable.step h ha

theorem sampleBoard_reachable : TReachable sampleBoard := by
  have h0 : TReachable initial_state := TReachable.init
  have h1 : TReachable
      [[Cell.X, Cell.Empty, Cell.Empty],
       [Cell.Empty, Cell.Empty, Cell.Empty],
       [Cell.Empty, Cell.Empty, Cell.Empty]] :=
    @TReachable_of_eq _ _ (0, 0) h0 (by decide) (by decide)
  have h2 : TReachable
      [[Cell.X, Cell.Empty, Cell.Empty],
       [Cell.O, Cell.Empty, Cell.Empty],
       [Cell.Empty, Cell.Empty, Cell.Empty]] :=
    @TReachable_of_eq _ _ (1, 0) h1 (by decide) (by decide)
  have h3 : TReachable
      [[Cell.X, Cell.X, Cell.Empty],
       [Cell.O, Cell.Empty, Cell.Empty],
       [Cell.Empty, Cell.Empty, Cell.Empty]] :=
    @TReachable_of_eq _ _ (0, 1) h2 (by decide) (by decide)
  exact @TReachable_of_eq _ _ (1, 1) h3 (by decide) (by decide)

/-- Witness for C1 at the concrete reachable board `sampleBoard`. -/
theorem C1_minimax_optimal_witness :
    (terminal sampleBoard = true → minimax sampleBoard = none) ∧
    (terminal sampleBoard = false →
      ∃ a, minimax sampleBoard = some a ∧ a ∈ actions sampleBoard ∧
        ((player sampleBoard = Cell.X →
            max_value sampleBoard = min_value (result_board sampleBoard a) ∧
            ∀ e ∈ actions sampleBoard,
              min_value (result_board sampleBoard e) ≤
                min_value (result_board sampleBoard a)) ∧
         (player sampleBoard = Cell.O →
            min_value sampleBoard = max_value (result_board sampleBoard a) ∧
            ∀ e ∈ actions sampleBoard,
              max_value (result_board sampleBoard a) ≤
                max_value (result_board sampleBoard e))) ∧
        ((∃ w ∈ actions sampleBoard,
            winner (result_board sampleBoard w) = some (player sampleBoard)) →
          (player sampleBoard = Cell.X →
            min_value (result_board sampleBoard a) = 1) ∧
          (player sampleBoard = Cell.O →
            max_value (result_board sampleBoard a) = -1))) :=
  C1_minimax_optimal sampleBoard sampleBoard_reachable

/-- The property that a winner report is X, O, or nothing, never Empty. -/
abbrev NoEmptyWinner (o : Option Cell) : Prop :=
  o = none ∨ o = some Cell.X ∨ o = some Cell.O

theorem lineWinner_cases (a b c : Cell) : NoEmptyWinner (lineWinner a b c) := by
  cases a <;> cases b <;> cases c <;> decide

theorem orElse_no_empty {o : Option Cell} {f : Unit → Option Cell}
    (h1 : NoEmptyWinner o) (h2 : NoEmptyWinner (f ())) :
    NoEmptyWinner (o.orElse f) := by
  cases o
  · simpa [Option.orElse] using h2
  · simpa [Option.orElse] using h1

/-- Claim C9: on every 3x3 board whose cells are Empty, X, or O (reachable
or not), `winner` returns X, O, or nothing, and never the Empty marker: a
line of three Empty cells is not reported as a winning line. -/
theorem C9_winner_never_empty :
    ∀ a0 a1 a2 b0 b1 b2 c0 c1 c2 : Cell,
      winner [[a0, a1, a2], [b0, b1, b2], [c0, c1, c2]] = none ∨
      winner [[a0, a1, a2], [b0, b1, b2], [c0, c1, c2]] = some Cell.X ∨
      winner [[a0, a1, a2], [b0, b1, b2], [c0, c1, c2]] = some Cell.O := by
  intro a0 a1 a2 b0 b1 b2 c0 c1 c2
  show NoEmptyWinner _
  unfold winner
  exact orElse_no_empty (lineWinner_cases _ _ _)
    (orElse_no_empty (lineWinner_cases _ _ _)
      (orElse_no_empty (lineWinner_cases _ _ _)
        (orElse_no_empty (lineWinner_cases _ _ _)
          (orElse_no_empty (lineWinner_cases _ _ _)
            (orElse_no_empty (lineWinner_cases _ _ _)
              (orElse_no_empty (lineWinner_cases _ _ _)
                (lineWinner_cases _ _ _)))))))

/-- The cell the move targets: `board[i][j]` as an optional lookup. -/
def cellAt (b : Board) (i j : Int) : Option Cell :=
  (b[i.toNat]?).bind (fun row => row[j.toNat]?)

theorem result_spec (b : Board) (i j : Int) (hlen : b.length = 3)
    (hrows : ∀ r ∈ b, r.length = 3) :
    (result b (i, j) = .error .outOfBounds ↔
      (i < 0 ∨ j < 0 ∨ 3 ≤ i ∨ 3 ≤ j)) ∧
    (result b (i, j) = .error .invalidMove ↔
      (0 ≤ i ∧ i < 3 ∧ 0 ≤ j ∧ j < 3 ∧ cellAt b i j ≠ some Cell.Empty)) ∧
    ((∃ nb, result b (i, j) = .ok nb) ↔
      (0 ≤ i ∧ i < 3 ∧ 0 ≤ j ∧ j < 3 ∧ cellAt b i j = some Cell.Empty)) := by
  by_cases hneg : i < 0 ∨ j < 0
  · have h1 : result b (i, j) = .error .outOfBounds := by
      simp [result, hneg]
    refine ⟨by simp [h1]; omega, by simp [h1]; omega, by simp [h1]; omega⟩
  · have hni : ¬ (i < 0 ∨ j < 0) := hneg
    push_neg at hneg
    obtain ⟨hi0, hj0⟩ := hneg
    by_cases hi3 : 3 ≤ i
    · have hrow : b[i.toNat]? = none := by
        rw [List.getElem?_eq_none_iff]
        omega
      have h1 : result b (i, j) = .error .outOfBounds := by
        simp [result, hni, hrow]
      refine ⟨by simp [h1]; omega, by simp [h1]; omega, by simp [h1]; omega⟩
    · rcases hrow : b[i.toNat]? with _ | row
      · exfalso
        have := List.getElem?_eq_none_iff.mp hrow
        omega
      · have hrl : row.length = 3 := hrows row (List.getElem?_mem hrow)
        by_cases hj3 : 3 ≤ j
        · have hc : row[j.toNat]? = none := by
            rw [List.getElem?_eq_none_iff]
            omega
          have h1 : result b (i, j) = .error .outOfBounds := by
            simp [result, hni, hrow, hc]
          refine ⟨by simp [h1]; omega, by simp [h1]; omega, by simp [h1]; omega⟩
        · rcases hc : row[j.toNat]? with _ | c
          · exfalso
            have := List.getElem?_eq_none_iff.mp hc
            omega
          · have hcell : cellAt b i j = some c := by
              unfold cellAt
              rw [hrow]
              simpa using hc
            by_cases hce : c = Cell.Empty
            · have h1 : result b (i, j) =
                  .ok (setBoard b i.toNat j.toNat (player b)) := by
                simp [result, hni, hrow, hc, hce]
              refine ⟨by simp [h1]; omega, by simp [h1, hcell, hce],
                by simp [h1, hcell, hce]; omega⟩
            · have h1 : result b (i, j) = .error .invalidMove := by
                simp [result, hni, hrow, hc, hce]
              refine ⟨by simp [h1]; omega, by simp [h1, hcell, hce]; omega,
                by simp [h1, hcell, hce]⟩

/-- Claim C4: on every 3x3 board and action (i, j), `result` fails with the
out-of-bounds error (`IndexError`) exactly when i or j is negative or at
least 3, fails with the invalid-move error (`ValueError`) exactly when the
in-bounds target cell is not Empty, and succeeds otherwise. -/
theorem C4_result_errors :
    ∀ (a0 a1 a2 b0 b1 b2 c0 c1 c2 : Cell) (i j : Int),
      (result [[a0, a1, a2], [b0, b1, b2], [c0, c1, c2]] (i, j) =
          .error .outOfBounds ↔ (i < 0 ∨ j < 0 ∨ 3 ≤ i ∨ 3 ≤ j)) ∧
      (result [[a0, a1, a2], [b0, b1, b2], [c0, c1, c2]] (i, j) =
          .error .invalidMove ↔
        (0 ≤ i ∧ i < 3 ∧ 0 ≤ j ∧ j < 3 ∧
          cellAt [[a0, a1, a2], [b0, b1, b2], [c0, c1, c2]] i j ≠
            some Cell.Empty)) ∧
      ((∃ nb, result [[a0, a1, a2], [b0, b1, b2], [c0, c1, c2]] (i, j) =
          .ok nb) ↔
        (0 ≤ i ∧ i < 3 ∧ 0 ≤ j ∧ j < 3 ∧
          cellAt [[a0, a1, a2], [b0, b1, b2], [c0, c1, c2]] i j =
            some Cell.Empty)) := by
  intro a0 a1 a2 b0 b1 b2 c0 c1 c2 i j
  refine result_spec _ i j (by simp) ?_
  intro r hr
  simp only [List.mem_cons, List.not_mem_nil, or_false] at hr
  rcases hr with rfl | rfl | rfl <;> rfl

end TicTacToe

namespace Minesweeper

/-- A knowledge sentence: a set of board cells together with the exact
number of mines among them (`self.cells`, `self.count`). Two sentences are
equal exactly when their cell sets and counts are equal, as in `__eq__`. -/
structure Sentence where
  cells : Finset (Int × Int)
  count : Int

instance : DecidableEq Sentence := fun a b =>
  decidable_of_iff (a.cells = b.cells ∧ a.count = b.count)
    (by cases a; cases b; simp)

/-- `known_mines()`: every cell is a mine when `len(cells) == count`. -/
def Sentence.known_mines (s : Sentence) : Finset (Int × Int) :=
  if (s.cells.card : Int) = s.count then s.cells else ∅

/-- `known_safes()`: every cell is safe when `count == 0`. -/
def Sentence.known_safes (s : Sentence) : Finset (Int × Int) :=
  if s.count = 0 then s.cells else ∅

/-- `Sentence.mark_mine(cell)`: drop a member cell and decrement count. -/
def Sentence.mark_mine (s : Sentence) (c : Int × Int) : Sentence :=
  if c ∈ s.cells then ⟨s.cells.erase c, s.count - 1⟩ else s

/-- `Sentence.mark_safe(cell)`: drop a member cell, count unchanged. -/
def Sentence.mark_safe (s : Sentence) (c : Int × Int) : Sentence :=
  if c ∈ s.cells then ⟨s.cells.erase c, s.count⟩ else s

/-- The mutable state of `MinesweeperAI`. -/
structure AIState where
  height : Int
  width : Int
  moves_made : Finset (Int × Int)
  mines : Finset (Int × Int)
  safes : Finset (Int × Int)
  knowledge : List Sentence

instance : DecidableEq AIState := fun a b =>
  decidable_of_iff (a.height = b.height ∧ a.width = b.width ∧
      a.moves_made = b.moves_made ∧ a.mines = b.mines ∧
      a.safes = b.safes ∧ a.knowledge = b.knowledge)
    (by cases a; cases b; simp)

/-- `MinesweeperAI.mark_mine(cell)`: record the mine and propagate to
every sentence. -/
def AIState.mark_mine (st : AIState) (c : Int × Int) : AIState :=
  { st with
    mines := insert c st.mines
    knowledge := st.knowledge.map (fun s => s.mark_mine c) }

/-- `MinesweeperAI.mark_safe(cell)`: record the safe cell and propagate to
every sentence. -/
def AIState.mark_safe (st : AIState) (c : Int × Int) : AIState :=
  { st with
    safes := insert c st.safes
    knowledge := st.knowledge.map (fun s => s.mark_safe c) }

/-- `get_neighbors(cell)`: the up-to-8 surrounding in-bounds cells. -/
def neighbors (height width : Int) (c : Int × Int) : Finset (Int × Int) :=
  ((Finset.Icc (c.1 - 1) (c.1 + 1)) ×ˢ (Finset.Icc (c.2 - 1) (c.2 + 1))).filter
    (fun p => p ≠ c ∧ 0 ≤ p.1 ∧ p.1 < height ∧ 0 ≤ p.2 ∧ p.2 < width)

/-- The lexicographic order used to enumerate a finite set of cells; the
source iterates Python sets in unspecified order, and every enumeration
order yields the same result here because the individual marks commute. -/
def cellLE (a b : Int × Int) : Prop :=
  a.1 < b.1 ∨ (a.1 = b.1 ∧ a.2 ≤ b.2)

instance : DecidableRel cellLE := fun a b => by
  unfold cellLE
  infer_instance

instance : IsTrans (Int × Int) cellLE := by
  constructor
  intro a b c hab hbc
  unfold cellLE at *
  omega

instance : IsAntisymm (Int × Int) cellLE := by
  constructor
  intro a b hab hba
  unfold cellLE at *
  have : a.1 = b.1 ∧ a.2 = b.2 := by omega
  exact Prod.ext this.1 this.2

instance : IsTotal (Int × Int) cellLE := by
  constructor
  intro a b
  unfold cellLE
  omega

/-- A concrete enumeration of a finite set of cells (insertion sort, which
reduces definitionally; the result does not depend on the representative
list of the underlying multiset). -/
def cellsList (s : Finset (Int × Int)) : List (Int × Int) :=
  Quot.liftOn s.val (fun l => List.insertionSort cellLE l)
    (fun l1 l2 h => List.eq_of_perm_of_sorted
      ((List.perm_insertionSort cellLE l1).trans
        ((Quotient.exact (Quotient.sound h)).trans
          (List.perm_insertionSort cellLE l2).symm))
      (List.sorted_insertionSort cellLE l1)
      (List.sorted_insertionSort cellLE l2))

theorem mem_cellsList {s : Finset (Int × Int)} {x : Int × Int} :
    x ∈ cellsList s ↔ x ∈ s := by
  rcases s with ⟨m, hnd⟩
  induction m using Quotient.inductionOn with
  | h l =>
    show x ∈ List.insertionSort cellLE l ↔ _
    rw [(List.perm_insertionSort cellLE l).mem_iff]
    simp [Finset.mem_def]

/-- `make_conclusion(sentence)` applied to one sentence value: mark all its
cells safe when the count is zero, mark them all mines when the count
equals the number of cells (iterating a snapshot of the cells, as the
source copies the set before marking). -/
def concludeSentence (st : AIState) (s : Sentence) : AIState :=
  if s.count = 0 then (cellsList s.cells).foldl AIState.mark_safe st
  else if (s.cells.card : Int) = s.count then
    (cellsList s.cells).foldl AIState.mark_mine st
  else st

/-- One step of the `for sentence in self.knowledge` conclusion loop: the
sentence at position `i` is read from the current (already updated)
knowledge list, as Python reads the mutated object. -/
def concludeAt (st : AIState) (i : Nat) : AIState :=
  match st.knowledge[i]? with
  | none => st
  | some s => concludeSentence st s

/-- Step 1 of each fixpoint pass: conclusions for every sentence position.
Marking never changes the length of the knowledge list, so the range over
the initial length matches Python iterating the list it mutates through. -/
def conclusionPass (st : AIState) : AIState :=
  (List.range st.knowledge.length).foldl concludeAt st

/-- Step 2 of each fixpoint pass: drop sentences with empty cell sets. -/
def cleanupState (st : AIState) : AIState :=
  { st with knowledge := st.knowledge.filter (fun s => s.cells ≠ ∅) }

/-- `make_inference(set1, set2)` for two distinct live sentences: order the
pair by cell-set size, and when the smaller cell set is contained in the
larger derive (larger minus smaller cells) = (larger minus smaller count),
unless that sentence is already in the knowledge list `k`. -/
def make_inference (k : List Sentence) (s1 s2 : Sentence) : Option Sentence :=
  let t := if s1.cells.card > s2.cells.card then (s2, s1) else (s1, s2)
  if t.1.cells ⊆ t.2.cells then
    let ns : Sentence := ⟨t.2.cells \ t.1.cells, t.2.count - t.1.count⟩
    if ns ∈ k then none else some ns
  else none

/-- All ordered pairs of knowledge positions, outer index first, exactly
the order of the two nested `for` loops of step 3. -/
def sentencePairs (k : List Sentence) :
    List ((Nat × Sentence) × (Nat × Sentence)) :=
  k.enum.flatMap (fun p1 => k.enum.map (fun p2 => (p1, p2)))

/-- Step 3 of each fixpoint pass: every inference from an ordered pair of
distinct list positions (`set1 is set2` compares object identity, i.e.
positions, since each appended sentence is a fresh object), in iteration
order. -/
def inferAll (k : List Sentence) : List Sentence :=
  (sentencePairs k).filterMap
    (fun q => if q.1.1 = q.2.1 then none else make_inference k q.1.2 q.2.2)

/-- One full pass of the `while True` fixpoint loop: conclusions, cleanup,
then extension by the newly inferred sentences. -/
def loopStep (st : AIState) : AIState :=
  let st2 := cleanupState (conclusionPass st)
  { st2 with knowledge := st2.knowledge ++ inferAll st2.knowledge }

/-- The quantities the loop exit test compares: `len(self.mines)`,
`len(self.safes)`, `len(self.knowledge)`. -/
def triple (st : AIState) : Nat × Nat × Nat :=
  (st.mines.card, st.safes.card, st.knowledge.length)

/-- The fixpoint loop with fuel: run one pass; stop when the three tracked
lengths did not change, otherwise keep looping. `none` means the fuel ran
out before the exit test succeeded; the Python loop terminates on a given
state exactly when some finite fuel returns `some`. -/
def loopRun : Nat → AIState → Option AIState
  | 0, _ => none
  | n + 1, st =>
    let st2 := loopStep st
    if triple st = triple st2 then some st2 else loopRun n st2

/-- `add_knowledge(cell, count)`: record the move, mark the cell safe,
compute the unknown neighbors; return early when nothing new can be
learned, otherwise append the new sentence and run the fixpoint loop. -/
def add_knowledge (st : AIState) (cell : Int × Int) (count : Int)
    (fuel : Nat) : Option AIState :=
  let st1 := { st with moves_made := insert cell st.moves_made }
  let st2 := st1.mark_safe cell
  let nbrs := neighbors st2.height st2.width cell
  let knownMines := nbrs ∩ st2.mines
  let knownSafes := nbrs ∩ st2.safes
  let known := knownMines ∪ knownSafes
  let notKnown := nbrs \ known
  if notKnown = ∅ then some st2
  else
    let ns : Sentence := ⟨notKnown, count - (knownMines.card : Int)⟩
    if ns ∈ st2.knowledge then some st2
    else loopRun fuel { st2 with knowledge := st2.knowledge ++ [ns] }

/-- `make_safe_move()`: `random.choice` over the unplayed known-safe cells,
modelled by an arbitrary pick index into the candidate list; the state is
returned unchanged, as the method mutates nothing. -/
def make_safe_move (st : AIState) (pick : Nat) :
    Option (Int × Int) × AIState :=
  let l := cellsList (st.safes \ st.moves_made)
  (if l.length ≠ 0 then l[pick % l.length]? else none, st)

/-- States reachable from a fresh `MinesweeperAI` by completed
`add_knowledge` calls (arbitrary cell and count inputs). -/
inductive MSReachable : AIState → Prop where
  | init (h w : Int) : MSReachable ⟨h, w, ∅, ∅, ∅, []⟩
  | step {st st2 : AIState} {cell : Int × Int} {count : Int} {fuel : Nat} :
      MSReachable st → add_knowledge st cell count fuel = some st2 →
      MSReachable st2

/-- Claim C7: `known_mines()` returns (a copy of) the cell set exactly when
the cell count equals `count` and the empty set otherwise, `known_safes()`
returns the cell set exactly when `count = 0` and the empty set otherwise;
in particular for a = (0,0), b = (0,1), c = (0,2):
`Sentence({a,b},2).known_mines() = {a,b}`,
`Sentence({a,b},0).known_safes() = {a,b}`, and `Sentence({a,b,c},1)` yields
the empty set from both. -/
theorem C7_known_mines_safes :
    (∀ s : Sentence,
      (((s.cells.card : Int) = s.count ∧ s.known_mines = s.cells) ∨
        ((s.cells.card : Int) ≠ s.count ∧ s.known_mines = ∅)) ∧
      ((s.count = 0 ∧ s.known_safes = s.cells) ∨
        (s.count ≠ 0 ∧ s.known_safes = ∅))) ∧
    (Sentence.mk {(0, 0), (0, 1)} 2).known_mines = {(0, 0), (0, 1)} ∧
    (Sentence.mk {(0, 0), (0, 1)} 0).known_safes = {(0, 0), (0, 1)} ∧
    (Sentence.mk {(0, 0), (0, 1), (0, 2)} 1).known_mines = ∅ ∧
    (Sentence.mk {(0, 0), (0, 1), (0, 2)} 1).known_safes = ∅ := by
  refine ⟨fun s => ⟨?_, ?_⟩, by decide, by decide, by decide, by decide⟩
  · by_cases h : (s.cells.card : Int) = s.count
    · exact Or.inl ⟨h, by simp [Sentence.known_mines, h]⟩
    · exact Or.inr ⟨h, by simp [Sentence.known_mines, h]⟩
  · by_cases h : s.count = 0
    · exact Or.inl ⟨h, by simp [Sentence.known_safes, h]⟩
    · exact Or.inr ⟨h, by simp [Sentence.known_safes, h]⟩

theorem mem_mark_safe_cells {s : Sentence} {c x : Int × Int} :
    x ∈ (s.mark_safe c).cells ↔ x ∈ s.cells ∧ x ≠ c := by
  unfold Sentence.mark_safe
  split
  · simp [Finset.mem_erase, and_comm]
  · rename_i h
    constructor
    · intro hx
      exact ⟨hx, fun he => h (he ▸ hx)⟩
    · exact fun hx => hx.1

theorem mem_mark_mine_cells {s : Sentence} {c x : Int × Int} :
    x ∈ (s.mark_mine c).cells ↔ x ∈ s.cells ∧ x ≠ c := by
  unfold Sentence.mark_mine
  split
  · simp [Finset.mem_erase, and_comm]
  · rename_i h
    constructor
    · intro hx
      exact ⟨hx, fun he => h (he ▸ hx)⟩
    · exact fun hx => hx.1

theorem mark_safe_state_fields (st : AIState) (c : Int × Int) :
    (st.mark_safe c).mines = st.mines ∧
    (st.mark_safe c).moves_made = st.moves_made ∧
    (st.mark_safe c).safes = insert c st.safes ∧
    (st.mark_safe c).height = st.height ∧
    (st.mark_safe c).width = st.width ∧
    (st.mark_safe c).knowledge = st.knowledge.map (fun s => s.mark_safe c) := by
  unfold AIState.mark_safe
  exact ⟨rfl, rfl, rfl, rfl, rfl, rfl⟩

theorem mark_mine_state_fields (st : AIState) (c : Int × Int) :
    (st.mark_mine c).safes = st.safes ∧
    (st.mark_mine c).moves_made = st.moves_made ∧
    (st.mark_mine c).mines = insert c st.mines ∧
    (st.mark_mine c).height = st.height ∧
    (st.mark_mine c).width = st.width ∧
    (st.mark_mine c).knowledge = st.knowledge.map (fun s => s.mark_mine c) := by
  unfold AIState.mark_mine
  exact ⟨rfl, rfl, rfl, rfl, rfl, rfl⟩

/-- Sentences never hold a cell already recorded as mine or safe. -/
def InvDisj (st : AIState) : Prop :=
  ∀ s ∈ st.knowledge, ∀ c ∈ s.cells, c ∉ st.mines ∧ c ∉ st.safes

/-- A cell recorded both safe and mine was necessarily probed. -/
def InvSM (st : AIState) : Prop :=
  ∀ c, c ∈ st.safes → c ∈ st.mines → c ∈ st.moves_made

theorem invDisj_mark_safe {st : AIState} (h : InvDisj st) (c : Int × Int) :
    InvDisj (st.mark_safe c) := by
  intro s hs x hx
  unfold AIState.mark_safe at hs
  simp only [List.mem_map] at hs
  obtain ⟨s0, hs0, rfl⟩ := hs
  obtain ⟨hx0, hxc⟩ := mem_mark_safe_cells.mp hx
  obtain ⟨h1, h2⟩ := h s0 hs0 x hx0
  refine ⟨?_, ?_⟩
  · simpa [AIState.mark_safe] using h1
  · simp [AIState.mark_safe, Finset.mem_insert, hxc, h2]

theorem invDisj_mark_mine {st : AIState} (h : InvDisj st) (c : Int × Int) :
    InvDisj (st.mark_mine c) := by
  intro s hs x hx
  unfold AIState.mark_mine at hs
  simp only [List.mem_map] at hs
  obtain ⟨s0, hs0, rfl⟩ := hs
  obtain ⟨hx0, hxc⟩ := mem_mark_mine_cells.mp hx
  obtain ⟨h1, h2⟩ := h s0 hs0 x hx0
  refine ⟨?_, ?_⟩
  · simp [AIState.mark_mine, Finset.mem_insert, hxc, h1]
  · simpa [AIState.mark_mine] using h2

theorem invSM_mark_safe {st : AIState} (h : InvSM st)
    {c : Int × Int} (hc : c ∉ st.mines ∨ c ∈ st.moves_made) :
    InvSM (st.mark_safe c) := by
  intro x hxs hxm
  simp only [AIState.mark_safe, Finset.mem_insert] at hxs hxm ⊢
  rcases hxs with rfl | hxs
  · rcases hc with hc | hc
    · exact absurd hxm hc
    · exact hc
  · exact h x hxs hxm

theorem invSM_mark_mine {st : AIState} (h : InvSM st)
    {c : Int × Int} (hc : c ∉ st.safes ∨ c ∈ st.moves_made) :
    InvSM (st.mark_mine c) := by
  intro x hxs hxm
  simp only [AIState.mark_mine, Finset.mem_insert] at hxs hxm ⊢
  rcases hxm with rfl | hxm
  · rcases hc with hc | hc
    · exact absurd hxs hc
    · exact hc
  · exact h x hxs hxm

theorem fold_mark_safe_props (xs : List (Int × Int)) :
    ∀ st : AIState, (∀ x ∈ xs, x ∉ st.mines) → InvDisj st → InvSM st →
      InvDisj (xs.foldl AIState.mark_safe st) ∧
      InvSM (xs.foldl AIState.mark_safe st) ∧
      (xs.foldl AIState.mark_safe st).mines = st.mines ∧
      (xs.foldl AIState.mark_safe st).moves_made = st.moves_made ∧
      st.safes ⊆ (xs.foldl AIState.mark_safe st).safes ∧
      (xs.foldl AIState.mark_safe st).height = st.height ∧
      (xs.foldl AIState.mark_safe st).width = st.width := by
  induction xs with
  | nil => intro st _ h1 h2; exact ⟨h1, h2, rfl, rfl, Finset.Subset.refl _, rfl, rfl⟩
  | cons x rest ih =>
    intro st hm h1 h2
    simp only [List.foldl_cons]
    have hx : x ∉ st.mines := hm x (by simp)
    have hrest : ∀ y ∈ rest, y ∉ (st.mark_safe x).mines := by
      intro y hy
      rw [(mark_safe_state_fields st x).1]
      exact hm y (by simp [hy])
    obtain ⟨a1, a2, a3, a4, a5, a6, a7⟩ := ih (st.mark_safe x) hrest
      (invDisj_mark_safe h1 x) (invSM_mark_safe h2 (Or.inl hx))
    refine ⟨a1, a2, ?_, ?_, ?_, ?_, ?_⟩
    · rw [a3, (mark_safe_state_fields st x).1]
    · rw [a4, (mark_safe_state_fields st x).2.1]
    · refine subset_trans ?_ a5
      rw [(mark_safe_state_fields st x).2.2.1]
      exact Finset.subset_insert x st.safes
    · rw [a6, (mark_safe_state_fields st x).2.2.2.1]
    · rw [a7, (mark_safe_state_fields st x).2.2.2.2.1]

theorem fold_mark_mine_props (xs : List (Int × Int)) :
    ∀ st : AIState, (∀ x ∈ xs, x ∉ st.safes) → InvDisj st → InvSM st →
      InvDisj (xs.foldl AIState.mark_mine st) ∧
      InvSM (xs.foldl AIState.mark_mine st) ∧
      (xs.foldl AIState.mark_mine st).safes = st.safes ∧
      (xs.foldl AIState.mark_mine st).moves_made = st.moves_made ∧
      st.mines ⊆ (xs.foldl AIState.mark_mine st).mines ∧
      (xs.foldl AIState.mark_mine st).height = st.height ∧
      (xs.foldl AIState.mark_mine st).width = st.width := by
  induction xs with
  | nil => intro st _ h1 h2; exact ⟨h1, h2, rfl, rfl, Finset.Subset.refl _, rfl, rfl⟩
  | cons x rest ih =>
    intro st hm h1 h2
    simp only [List.foldl_cons]
    have hx : x ∉ st.safes := hm x (by simp)
    have hrest : ∀ y ∈ rest, y ∉ (st.mark_mine x).safes := by
      intro y hy
      rw [(mark_mine_state_fields st x).1]
      exact hm y (by simp [hy])
    obtain ⟨a1, a2, a3, a4, a5, a6, a7⟩ := ih (st.mark_mine x) hrest
      (invDisj_mark_mine h1 x) (invSM_mark_mine h2 (Or.inl hx))
    refine ⟨a1, a2, ?_, ?_, ?_, ?_, ?_⟩
    · rw [a3, (mark_mine_state_fields st x).1]
    · rw [a4, (mark_mine_state_fields st x).2.1]
    · refine subset_trans ?_ a5
      rw [(mark_mine_state_fields st x).2.2.1]
      exact Finset.subset_insert x st.mines
    · rw [a6, (mark_mine_state_fields st x).2.2.2.1]
    · rw [a7, (mark_mine_state_fields st x).2.2.2.2.1]

theorem concludeSentence_props {st : AIState} {s : Sentence}
    (hs : ∀ x ∈ s.cells, x ∉ st.mines ∧ x ∉ st.safes)
    (h1 : InvDisj st) (h2 : InvSM st) :
    InvDisj (concludeSentence st s) ∧ InvSM (concludeSentence st s) ∧
    (concludeSentence st s).moves_made = st.moves_made ∧
    st.safes ⊆ (concludeSentence st s).safes ∧
    st.mines ⊆ (concludeSentence st s).mines ∧
    (concludeSentence st s).height = st.height ∧
    (concludeSentence st s).width = st.width := by
  unfold concludeSentence
  split
  · obtain ⟨a1, a2, a3, a4, a5, a6, a7⟩ :=
      fold_mark_safe_props (cellsList s.cells) st
        (fun x hx => (hs x (mem_cellsList.mp hx)).1)
        h1 h2
    exact ⟨a1, a2, a4, a5, a3 ▸ le_refl _, a6, a7⟩
  · split
    · obtain ⟨a1, a2, a3, a4, a5, a6, a7⟩ :=
        fold_mark_mine_props (cellsList s.cells) st
          (fun x hx => (hs x (mem_cellsList.mp hx)).2)
          h1 h2
      exact ⟨a1, a2, a4, a3 ▸ Finset.Subset.refl _, a5, a6, a7⟩
    · exact ⟨h1, h2, rfl, Finset.Subset.refl _, Finset.Subset.refl _, rfl, rfl⟩

theorem concludeAt_props {st : AIState} (i : Nat)
    (h1 : InvDisj st) (h2 : InvSM st) :
    InvDisj (concludeAt st i) ∧ InvSM (concludeAt st i) ∧
    (concludeAt st i).moves_made = st.moves_made ∧
    st.safes ⊆ (concludeAt st i).safes ∧
    st.mines ⊆ (concludeAt st i).mines ∧
    (concludeAt st i).height = st.height ∧
    (concludeAt st i).width = st.width := by
  unfold concludeAt
  rcases hg : st.knowledge[i]? with _ | s
  · exact ⟨h1, h2, rfl, Finset.Subset.refl _, Finset.Subset.refl _, rfl, rfl⟩
  · exact concludeSentence_props (h1 s (List.getElem?_mem hg)) h1 h2

theorem foldl_concludeAt_props (l : List Nat) :
    ∀ st : AIState, InvDisj st → InvSM st →
      InvDisj (l.foldl concludeAt st) ∧ InvSM (l.foldl concludeAt st) ∧
      (l.foldl concludeAt st).moves_made = st.moves_made ∧
      st.safes ⊆ (l.foldl concludeAt st).safes ∧
      st.mines ⊆ (l.foldl concludeAt st).mines ∧
      (l.foldl concludeAt st).height = st.height ∧
      (l.foldl concludeAt st).width = st.width := by
  induction l with
  | nil => intro st h1 h2; exact ⟨h1, h2, rfl, Finset.Subset.refl _, Finset.Subset.refl _, rfl, rfl⟩
  | cons i rest ih =>
    intro st h1 h2
    simp only [List.foldl_cons]
    obtain ⟨b1, b2, b3, b4, b5, b6, b7⟩ := concludeAt_props i h1 h2
    obtain ⟨a1, a2, a3, a4, a5, a6, a7⟩ := ih (concludeAt st i) b1 b2
    exact ⟨a1, a2, a3.trans b3, subset_trans b4 a4, subset_trans b5 a5,
      a6.trans b6, a7.trans b7⟩

theorem conclusionPass_props {st : AIState}
    (h1 : InvDisj st) (h2 : InvSM st) :
    InvDisj (conclusionPass st) ∧ InvSM (conclusionPass st) ∧
    (conclusionPass st).moves_made = st.moves_made ∧
    st.safes ⊆ (conclusionPass st).safes ∧
    st.mines ⊆ (conclusionPass st).mines ∧
    (conclusionPass st).height = st.height ∧
    (conclusionPass st).width = st.width :=
  foldl_concludeAt_props (List.range st.knowledge.length) st h1 h2

theorem make_inference_some_spec {k : List Sentence} {s1 s2 ns : Sentence}
    (h : make_inference k s1 s2 = some ns) :
    ns ∉ k ∧
    ∃ t1 t2 : Sentence,
      ((t1 = s1 ∧ t2 = s2) ∨ (t1 = s2 ∧ t2 = s1)) ∧
      t1.cells ⊆ t2.cells ∧
      ns = ⟨t2.cells \ t1.cells, t2.count - t1.count⟩ := by
  unfold make_inference at h
  dsimp only at h
  split at h
  · split at h
    · rename_i hsub
      split at h
      · exact absurd h (by simp)
      · rename_i hns
        simp only [Option.some.injEq] at h
        exact ⟨h ▸ hns, s2, s1, Or.inr ⟨rfl, rfl⟩, hsub, h.symm⟩
    · exact absurd h (by simp)
  · split at h
    · rename_i hsub
      split at h
      · exact absurd h (by simp)
      · rename_i hns
        simp only [Option.some.injEq] at h
        exact ⟨h ▸ hns, s1, s2, Or.inl ⟨rfl, rfl⟩, hsub, h.symm⟩
    · exact absurd h (by simp)

theorem mem_sentencePairs {k : List Sentence}
    {q : (Nat × Sentence) × (Nat × Sentence)} :
    q ∈ sentencePairs k ↔ q.1 ∈ k.enum ∧ q.2 ∈ k.enum := by
  unfold sentencePairs
  simp only [List.mem_flatMap, List.mem_map]
  constructor
  · rintro ⟨p1, hp1, p2, hp2, rfl⟩
    exact ⟨hp1, hp2⟩
  · intro ⟨h1, h2⟩
    exact ⟨q.1, h1, q.2, h2, rfl⟩

theorem mem_inferAll_spec {k : List Sentence} {ns : Sentence}
    (h : ns ∈ inferAll k) :
    ns ∉ k ∧ ∃ t1 t2, t1 ∈ k ∧ t2 ∈ k ∧ t1.cells ⊆ t2.cells ∧
      ns = ⟨t2.cells \ t1.cells, t2.count - t1.count⟩ := by
  unfold inferAll at h
  obtain ⟨q, hq, hmk⟩ := List.mem_filterMap.mp h
  obtain ⟨h1, h2⟩ := mem_sentencePairs.mp hq
  have hm1 : q.1.2 ∈ k := List.getElem?_mem (List.mem_enum_iff_getElem?.mp h1)
  have hm2 : q.2.2 ∈ k := List.getElem?_mem (List.mem_enum_iff_getElem?.mp h2)
  split at hmk
  · exact absurd hmk (by simp)
  · obtain ⟨hnk, t1, t2, hor, hsub, hns⟩ := make_inference_some_spec hmk
    rcases hor with ⟨rfl, rfl⟩ | ⟨rfl, rfl⟩
    · exact ⟨hnk, _, _, hm1, hm2, hsub, hns⟩
    · exact ⟨hnk, _, _, hm2, hm1, hsub, hns⟩

theorem cleanup_knowledge_sub {st : AIState} {s : Sentence}
    (h : s ∈ (cleanupState st).knowledge) : s ∈ st.knowledge := by
  unfold cleanupState at h
  exact List.mem_of_mem_filter h

theorem loopStep_props {st : AIState} (h1 : InvDisj st) (h2 : InvSM st) :
    InvDisj (loopStep st) ∧ InvSM (loopStep st) ∧
    (loopStep st).moves_made = st.moves_made ∧
    st.safes ⊆ (loopStep st).safes ∧
    st.mines ⊆ (loopStep st).mines ∧
    (loopStep st).height = st.height ∧
    (loopStep st).width = st.width := by
  obtain ⟨a1, a2, a3, a4, a5, a6, a7⟩ := conclusionPass_props h1 h2
  unfold loopStep
  set stc := conclusionPass st with hstc
  have hd2 : InvDisj (cleanupState stc) := by
    intro s hs
    exact a1 s (cleanup_knowledge_sub hs)
  refine ⟨?_, ?_, ?_, ?_, ?_, ?_, ?_⟩
  · intro s hs x hx
    simp only [List.mem_append] at hs
    rcases hs with hs | hs
    · exact hd2 s hs x hx
    · obtain ⟨hnk, t1, t2, hm1, hm2, hsub, hns⟩ := mem_inferAll_spec hs
      have hx2 : x ∈ t2.cells := by
        rw [hns] at hx
        exact (Finset.mem_sdiff.mp hx).1
      exact hd2 t2 (by exact hm2) x hx2
  · exact a2
  · exact a3
  · exact a4
  · exact a5
  · exact a6
  · exact a7

theorem loopRun_props :
    ∀ (fuel : Nat) {st st2 : AIState}, loopRun fuel st = some st2 →
      InvDisj st → InvSM st →
      InvDisj st2 ∧ InvSM st2 ∧
      st2.moves_made = st.moves_made ∧
      st.safes ⊆ st2.safes ∧ st.mines ⊆ st2.mines ∧
      st2.height = st.height ∧ st2.width = st.width := by
  intro fuel
  induction fuel with
  | zero => intro st st2 h; exact absurd h (by simp [loopRun])
  | succ n ih =>
    intro st st2 h h1 h2
    obtain ⟨b1, b2, b3, b4, b5, b6, b7⟩ := loopStep_props h1 h2
    unfold loopRun at h
    dsimp only at h
    split at h
    · simp only [Option.some.injEq] at h
      subst h
      exact ⟨b1, b2, b3, b4, b5, b6, b7⟩
    · obtain ⟨a1, a2, a3, a4, a5, a6, a7⟩ := ih h b1 b2
      exact ⟨a1, a2, a3.trans b3, subset_trans b4 a4, subset_trans b5 a5,
        a6.trans b6, a7.trans b7⟩

/-- The state after the unconditional prefix of `add_knowledge`: the probed
cell is recorded in `moves_made` and marked safe. -/
def preState (st : AIState) (cell : Int × Int) : AIState :=
  AIState.mark_safe { st with moves_made := insert cell st.moves_made } cell

/-- The unknown neighbors of the probed cell, as `add_knowledge` computes
them: all in-bounds neighbors minus those already known mines or safes. -/
def notKnownOf (st : AIState) (cell : Int × Int) : Finset (Int × Int) :=
  neighbors st.height st.width cell \
    ((neighbors st.height st.width cell ∩ st.mines) ∪
      (neighbors st.height st.width cell ∩ st.safes))

/-- The sentence `add_knowledge` would append: the unknown neighbors with
the count adjusted by the already-known mine neighbors. -/
def newSentence (st : AIState) (cell : Int × Int) (count : Int) : Sentence :=
  ⟨notKnownOf st cell,
    count - ((neighbors st.height st.width cell ∩ st.mines).card : Int)⟩

theorem add_knowledge_cases {st st' : AIState} {cell : Int × Int}
    {count : Int} {fuel : Nat}
    (h : add_knowledge st cell count fuel = some st') :
    (notKnownOf (preState st cell) cell = ∅ ∧ st' = preState st cell) ∨
    (notKnownOf (preState st cell) cell ≠ ∅ ∧
      newSentence (preState st cell) cell count ∈ (preState st cell).knowledge ∧
      st' = preState st cell) ∨
    (notKnownOf (preState st cell) cell ≠ ∅ ∧
      newSentence (preState st cell) cell count ∉ (preState st cell).knowledge ∧
      loopRun fuel
        { preState st cell with knowledge :=
            (preState st cell).knowledge ++
              [newSentence (preState st cell) cell count] } = some st') := by
  unfold add_knowledge at h
  dsimp only at h
  rw [show AIState.mark_safe { st with moves_made := insert cell st.moves_made } cell
      = preState st cell from rfl] at h
  split at h
  · rename_i hc
    simp only [Option.some.injEq] at h
    exact Or.inl ⟨hc, h.symm⟩
  · rename_i hc
    split at h
    · rename_i hk
      simp only [Option.some.injEq] at h
      exact Or.inr (Or.inl ⟨hc, hk, h.symm⟩)
    · rename_i hk
      exact Or.inr (Or.inr ⟨hc, hk, h⟩)

theorem preState_fields (st : AIState) (cell : Int × Int) :
    (preState st cell).mines = st.mines ∧
    (preState st cell).moves_made = insert cell st.moves_made ∧
    (preState st cell).safes = insert cell st.safes ∧
    (preState st cell).height = st.height ∧
    (preState st cell).width = st.width ∧
    (preState st cell).knowledge =
      st.knowledge.map (fun s => s.mark_safe cell) := by
  unfold preState AIState.mark_safe
  exact ⟨rfl, rfl, rfl, rfl, rfl, rfl⟩

theorem preState_J {st : AIState} (h1 : InvDisj st) (h2 : InvSM st)
    (cell : Int × Int) :
    InvDisj (preState st cell) ∧ InvSM (preState st cell) := by
  have hd : InvDisj { st with moves_made := insert cell st.moves_made } := h1
  have hm : InvSM { st with moves_made := insert cell st.moves_made } := by
    intro x hxs hxm
    exact Finset.mem_insert_of_mem (h2 x hxs hxm)
  exact ⟨invDisj_mark_safe hd cell,
    invSM_mark_safe hm (Or.inr (Finset.mem_insert_self cell _))⟩

theorem newSentence_disj (st : AIState) (cell : Int × Int) (count : Int) :
    ∀ x ∈ (newSentence st cell count).cells, x ∉ st.mines ∧ x ∉ st.safes := by
  intro x hx
  unfold newSentence notKnownOf at hx
  simp only [Finset.mem_sdiff, Finset.mem_union, Finset.mem_inter] at hx
  obtain ⟨hn, hni⟩ := hx
  push_neg at hni
  exact ⟨hni.1 hn, hni.2 hn⟩

theorem add_knowledge_J {st st' : AIState} {cell : Int × Int} {count : Int}
    {fuel : Nat} (h1 : InvDisj st) (h2 : InvSM st)
    (h : add_knowledge st cell count fuel = some st') :
    InvDisj st' ∧ InvSM st' ∧
    cell ∈ st'.moves_made ∧ cell ∈ st'.safes ∧
    st'.height = st.height ∧ st'.width = st.width := by
  obtain ⟨p1, p2⟩ := preState_J h1 h2 cell
  obtain ⟨f1, f2, f3, f4, f5, f6⟩ := preState_fields st cell
  rcases add_knowledge_cases h with ⟨_, rfl⟩ | ⟨_, _, rfl⟩ | ⟨_, hk, hrun⟩
  · exact ⟨p1, p2, by simp [f2], by simp [f3], f4, f5⟩
  · exact ⟨p1, p2, by simp [f2], by simp [f3], f4, f5⟩
  · set stL : AIState :=
      { preState st cell with knowledge :=
          (preState st cell).knowledge ++
            [newSentence (preState st cell) cell count] } with hstL
    have hLd : InvDisj stL := by
      intro s hs x hx
      simp only [hstL, List.mem_append, List.mem_singleton] at hs
      rcases hs with hs | rfl
      · exact p1 s hs x hx
      · exact newSentence_disj (preState st cell) cell count x hx
    have hLm : InvSM stL := p2
    obtain ⟨a1, a2, a3, a4, a5, a6, a7⟩ := loopRun_props fuel hrun hLd hLm
    refine ⟨a1, a2, ?_, ?_, ?_, ?_⟩
    · rw [a3]
      simp [hstL, f2]
    · refine a4 ?_
      simp [hstL, f3]
    · rw [a6]
      exact f4
    · rw [a7]
      exact f5

theorem MSReachable_J {st : AIState} (h : MSReachable st) :
    InvDisj st ∧ InvSM st := by
  induction h with
  | init h w =>
    constructor
    · intro s hs
      simp at hs
    · intro c hc
      simp at hc
  | step hr hadd ih =>
    obtain ⟨a1, a2, _, _, _, _⟩ := add_knowledge_J ih.1 ih.2 hadd
    exact ⟨a1, a2⟩

/-- Claim C8: on every reachable AI state, `make_safe_move` returns a cell
in `safes` that is neither in `moves_made` nor in `mines` — whichever
candidate the random choice picks — or the no-move sentinel exactly when
no unplayed safe cell exists, and it leaves the whole state (in particular
`moves_made`, `safes`, `mines` and `knowledge`) unchanged. -/
theorem C8_make_safe_move (st : AIState) (h : MSReachable st) (pick : Nat) :
    (make_safe_move st pick).2 = st ∧
    ((make_safe_move st pick).1 = none ↔ st.safes \ st.moves_made = ∅) ∧
    (∀ c, (make_safe_move st pick).1 = some c →
      c ∈ st.safes ∧ c ∉ st.moves_made ∧ c ∉ st.mines) := by
  obtain ⟨hd, hm⟩ := MSReachable_J h
  unfold make_safe_move
  dsimp only
  refine ⟨rfl, ?_, ?_⟩
  · by_cases hl : (cellsList (st.safes \ st.moves_made)).length ≠ 0
    · rw [if_pos hl]
      have hlt : pick % (cellsList (st.safes \ st.moves_made)).length <
          (cellsList (st.safes \ st.moves_made)).length :=
        Nat.mod_lt _ (by omega)
      constructor
      · intro hnone
        rw [List.getElem?_eq_getElem hlt] at hnone
        exact absurd hnone (by simp)
      · intro hempty
        exfalso
        apply hl
        rcases hll : cellsList (st.safes \ st.moves_made) with _ | ⟨a, l⟩
        · simp
        · have : a ∈ st.safes \ st.moves_made := mem_cellsList.mp (by simp [hll])
          rw [hempty] at this
          simp at this
    · rw [if_neg hl]
      simp only [true_iff]
      have : cellsList (st.safes \ st.moves_made) = [] := by
        rcases he : cellsList (st.safes \ st.moves_made) with _ | ⟨a, l⟩
        · rfl
        · rw [he] at hl
          simp at hl
      by_contra hne
      obtain ⟨x, hx⟩ := Finset.nonempty_iff_ne_empty.mpr hne
      have hxs : x ∈ cellsList (st.safes \ st.moves_made) :=
        mem_cellsList.mpr hx
      rw [this] at hxs
      simp at hxs
  · intro c hc
    by_cases hl : (cellsList (st.safes \ st.moves_made)).length ≠ 0
    · rw [if_pos hl] at hc
      have hmem : c ∈ cellsList (st.safes \ st.moves_made) :=
        List.getElem?_mem hc
      have hmem2 : c ∈ st.safes \ st.moves_made := mem_cellsList.mp hmem
      obtain ⟨hcs, hcm⟩ := Finset.mem_sdiff.mp hmem2
      refine ⟨hcs, hcm, ?_⟩
      intro hcmine
      exact hcm (hm c hcs hcmine)
    · rw [if_neg hl] at hc
      exact absurd hc (by simp)

/-- A fresh 8x8 AI state. -/
def freshAI : AIState := ⟨8, 8, ∅, ∅, ∅, []⟩

/-- The state after probing (0,0) with count 0 on a fresh AI: the three
neighbors of the corner are deduced safe. -/
def safeMoveState : AIState :=
  ⟨8, 8, {(0, 0)}, ∅, {(0, 0), (0, 1), (1, 0), (1, 1)}, []⟩

theorem eq_some_of_checks {o : Option AIState} {d st2 : AIState}
    (h1 : o.isSome = true) (h2 : o.getD d = st2) : o = some st2 := by
  cases o
  · simp at h1
  · simpa using h2

theorem safeMoveState_reachable : MSReachable safeMoveState :=
  @MSReachable.step _ _ (0, 0) 0 2
    (MSReachable.init 8 8)
    (@eq_some_of_checks _ freshAI _ (by decide) (by decide))

/-- Witness for C8 at the concrete reachable state `safeMoveState`. -/
theorem C8_make_safe_move_witness :
    (make_safe_move safeMoveState 0).2 = safeMoveState ∧
    ((make_safe_move safeMoveState 0).1 = none ↔
      safeMoveState.safes \ safeMoveState.moves_made = ∅) ∧
    (∀ c, (make_safe_move safeMoveState 0).1 = some c →
      c ∈ safeMoveState.safes ∧ c ∉ safeMoveState.moves_made ∧
        c ∉ safeMoveState.mines) :=
  C8_make_safe_move safeMoveState safeMoveState_reachable 0

/-- Claim C10: even when `add_knowledge` exits early — because the probed
cell has no unknown in-bounds neighbors, or because the sentence it would
add is already in the knowledge collection — it still records the cell in
`moves_made`, adds it to `safes`, and removes it from every live sentence
via `mark_safe` before returning. -/
theorem C10_early_exit_marks (st st' : AIState) (cell : Int × Int)
    (count : Int) (fuel : Nat)
    (h : add_knowledge st cell count fuel = some st')
    (hearly : notKnownOf (preState st cell) cell = ∅ ∨
      newSentence (preState st cell) cell count ∈ (preState st cell).knowledge) :
    cell ∈ st'.moves_made ∧ cell ∈ st'.safes ∧
    ∀ s ∈ st'.knowledge, cell ∉ s.cells := by
  obtain ⟨f1, f2, f3, f4, f5, f6⟩ := preState_fields st cell
  have hpre : cell ∈ (preState st cell).moves_made ∧
      cell ∈ (preState st cell).safes ∧
      ∀ s ∈ (preState st cell).knowledge, cell ∉ s.cells := by
    refine ⟨by simp [f2], by simp [f3], ?_⟩
    intro s hs
    rw [f6] at hs
    obtain ⟨s0, _, rfl⟩ := List.mem_map.mp hs
    intro hc
    exact (mem_mark_safe_cells.mp hc).2 rfl
  rcases add_knowledge_cases h with ⟨_, rfl⟩ | ⟨_, _, rfl⟩ | ⟨hc, hk, _⟩
  · exact hpre
  · exact hpre
  · rcases hearly with he | he
    · exact absurd he hc
    · exact absurd he hk

/-- The state after probing (0,0) with count 1 on a fresh AI. -/
def dupState : AIState :=
  ⟨8, 8, {(0, 0)}, ∅, {(0, 0)}, [⟨{(0, 1), (1, 0), (1, 1)}, 1⟩]⟩

/-- Witness for C10: probing (0,0) with count 1 twice; the second call
exits early on the duplicate-sentence check. -/
theorem C10_early_exit_marks_witness :
    (0, 0) ∈ dupState.moves_made ∧ (0, 0) ∈ dupState.safes ∧
    ∀ s ∈ dupState.knowledge, (0, 0) ∉ s.cells :=
  C10_early_exit_marks dupState dupState (0, 0) 1 2
    (@eq_some_of_checks _ freshAI _ (by decide) (by decide))
    (Or.inr (by decide))

/-- The state after probing (0,0) with count 1 and then again with the
(inconsistent) count 5: the loop exits with two empty-cell sentences in
the knowledge collection. -/
def emptyRemainState : AIState :=
  ⟨8, 8, {(0, 0)}, ∅, {(0, 0)},
    [⟨{(0, 1), (1, 0), (1, 1)}, 1⟩, ⟨{(0, 1), (1, 0), (1, 1)}, 5⟩,
      ⟨∅, 4⟩, ⟨∅, -4⟩]⟩

/-- Counterexample for claim C5 as stated: a reachable state produced by a
completed `add_knowledge` call that retains sentences with empty cell
sets. -/
theorem C5_empty_sentences_remain :
    MSReachable emptyRemainState ∧
    add_knowledge dupState (0, 0) 5 8 = some emptyRemainState ∧
    ∃ s ∈ emptyRemainState.knowledge, s.cells = ∅ := by
  have h1 : add_knowledge freshAI (0, 0) 1 2 = some dupState :=
    @eq_some_of_checks _ freshAI _ (by decide) (by decide)
  have h2 : add_knowledge dupState (0, 0) 5 8 = some emptyRemainState :=
    @eq_some_of_checks _ freshAI _ (by decide) (by decide)
  refine ⟨?_, h2, ⟨∅, 4⟩, by decide, rfl⟩
  exact MSReachable.step (MSReachable.step (MSReachable.init 8 8) h1) h2

/-- Claim C5 amended: the cleanup step of each pass leaves no sentence
with an empty cell set, and after a completed fixpoint run the knowledge
is the final cleanup result (free of empty-cell sentences) extended by the
final inference pass; empty-cell sentences can remain only among the
sentences that final inference pass derived. -/
theorem C5_cleanup_no_empty :
    (∀ st : AIState, ∀ s ∈ (cleanupState st).knowledge, s.cells ≠ ∅) ∧
    (∀ (fuel : Nat) (st st2 : AIState), loopRun fuel st = some st2 →
      ∃ C : List Sentence, (∀ s ∈ C, s.cells ≠ ∅) ∧
        st2.knowledge = C ++ inferAll C) := by
  have hcl : ∀ st : AIState, ∀ s ∈ (cleanupState st).knowledge,
      s.cells ≠ ∅ := by
    intro st s hs
    unfold cleanupState at hs
    simpa using (List.mem_filter.mp hs).2
  refine ⟨hcl, ?_⟩
  intro fuel
  induction fuel with
  | zero => intro st st2 h; exact absurd h (by simp [loopRun])
  | succ n ih =>
    intro st st2 h
    unfold loopRun at h
    dsimp only at h
    split at h
    · simp only [Option.some.injEq] at h
      subst h
      exact ⟨(cleanupState (conclusionPass st)).knowledge,
        hcl (conclusionPass st), rfl⟩
    · exact ih _ _ h

/-- The result of the fixpoint loop on the C3 scenario state. -/
def subsetFixState : AIState :=
  ⟨8, 8, ∅, {(0, 2)}, ∅,
    [⟨{(0, 0), (0, 1)}, 1⟩, ⟨{(0, 0), (0, 1)}, 1⟩, ⟨∅, 0⟩, ⟨∅, 0⟩]⟩

/-- The state whose knowledge holds exactly the two sentences of the
subset-inference example. -/
def subsetState : AIState :=
  ⟨8, 8, ∅, ∅, ∅, [⟨{(0, 0), (0, 1)}, 1⟩, ⟨{(0, 0), (0, 1), (0, 2)}, 2⟩]⟩

/-- Witness for the amended C5 at the concrete fixpoint run from
`subsetState`. -/
theorem C5_cleanup_no_empty_witness :
    ∃ C : List Sentence, (∀ s ∈ C, s.cells ≠ ∅) ∧
      subsetFixState.knowledge = C ++ inferAll C :=
  C5_cleanup_no_empty.2 10 subsetState subsetFixState
    (@eq_some_of_checks _ freshAI _ (by decide) (by decide))

/-- Claim C3: during the fixpoint, for every ordered pair of distinct live
sentences (distinct knowledge positions) whose cell sets are in a subset
relation, the inference step derives the sentence (superset cells minus
subset cells) = (superset count minus subset count) and adds it when not
already present — each pass extends the cleaned knowledge with exactly
these inferences; in particular from {(0,0),(0,1)}=1 and
{(0,0),(0,1),(0,2)}=2 the engine derives {(0,2)}=1 in one pass and the
completed fixpoint run marks (0,2) as a mine. -/
theorem C3_subset_inference :
    (∀ (k : List Sentence) (i j : Nat) (s1 s2 : Sentence),
      i ≠ j → k[i]? = some s1 → k[j]? = some s2 →
      s1.cells ⊆ s2.cells →
      Sentence.mk (s2.cells \ s1.cells) (s2.count - s1.count) ∉ k →
      Sentence.mk (s2.cells \ s1.cells) (s2.count - s1.count) ∈ inferAll k) ∧
    (∀ st : AIState, (loopStep st).knowledge =
      (cleanupState (conclusionPass st)).knowledge ++
        inferAll (cleanupState (conclusionPass st)).knowledge) ∧
    Sentence.mk {(0, 2)} 1 ∈ (loopStep subsetState).knowledge ∧
    loopRun 10 subsetState = some subsetFixState ∧
    (0, 2) ∈ subsetFixState.mines := by
  refine ⟨?_, fun st => rfl, by decide,
    @eq_some_of_checks _ freshAI _ (by decide) (by decide), by decide⟩
  intro k i j s1 s2 hij h1 h2 hsub hnk
  unfold inferAll
  refine List.mem_filterMap.mpr ⟨((i, s1), (j, s2)), ?_, ?_⟩
  · exact mem_sentencePairs.mpr
      ⟨List.mem_enum_iff_getElem?.mpr h1, List.mem_enum_iff_getElem?.mpr h2⟩
  · rw [if_neg hij]
    unfold make_inference
    dsimp only
    rw [if_neg (show ¬ s2.cells.card < s1.cells.card by
      simpa using Finset.card_le_card hsub)]
    dsimp only
    rw [if_pos hsub, if_neg hnk]

/-- Witness for C3 at the concrete pair of sentences of `subsetState`. -/
theorem C3_subset_inference_witness :
    Sentence.mk (({(0, 0), (0, 1), (0, 2)} : Finset (Int × Int)) \
        ({(0, 0), (0, 1)} : Finset (Int × Int))) (2 - 1) ∈
      inferAll subsetState.knowledge :=
  C3_subset_inference.1 subsetState.knowledge 0 1
    ⟨{(0, 0), (0, 1)}, 1⟩ ⟨{(0, 0), (0, 1), (0, 2)}, 2⟩
    (by decide) (by decide) (by decide) (by decide) (by decide)

theorem mark_safe_eq_erase (s : Sentence) (c : Int × Int) :
    s.mark_safe c = ⟨s.cells.erase c, s.count⟩ := by
  unfold Sentence.mark_safe
  split
  · rfl
  · rename_i h
    rcases s with ⟨cs, n⟩
    simp only [Sentence.mk.injEq]
    exact ⟨(Finset.erase_eq_self.mpr h).symm, trivial⟩

theorem newSentence_cells (st : AIState) (cell : Int × Int) (count : Int) :
    (newSentence st cell count).cells =
      neighbors st.height st.width cell \ (st.mines ∪ st.safes) := by
  unfold newSentence notKnownOf
  ext x
  simp only [Finset.mem_sdiff, Finset.mem_union, Finset.mem_inter]
  tauto

/-- The call-specific tracking invariant of `add_knowledge`: either the
sentence the probe (cell, count) would contribute, as updated by all marks
so far, is still in the knowledge collection, or every neighbor of the
probe has become known. A second identical call early-returns exactly
because of this invariant. -/
def Tracks (cell : Int × Int) (count : Int) (st : AIState) : Prop :=
  newSentence st cell count ∈ st.knowledge ∨
  neighbors st.height st.width cell ⊆ st.mines ∪ st.safes

theorem tracks_mark_safe {cell : Int × Int} {count : Int} {st : AIState}
    (h : Tracks cell count st) (x : Int × Int) :
    Tracks cell count (st.mark_safe x) := by
  obtain ⟨f1, f2, f3, f4, f5, f6⟩ := mark_safe_state_fields st x
  have hcells : (newSentence (st.mark_safe x) cell count).cells =
      (newSentence st cell count).cells.erase x := by
    rw [newSentence_cells, newSentence_cells, f1, f3, f4, f5]
    ext y
    simp only [Finset.mem_erase, Finset.mem_sdiff, Finset.mem_union,
      Finset.mem_insert]
    tauto
  have hcount : (newSentence (st.mark_safe x) cell count).count =
      (newSentence st cell count).count := by
    unfold newSentence
    rw [f1, f4, f5]
  rcases h with hmem | hsub
  · left
    rw [f6]
    refine List.mem_map.mpr ⟨newSentence st cell count, hmem, ?_⟩
    rw [mark_safe_eq_erase]
    rcases hns : newSentence (st.mark_safe x) cell count with ⟨cs, n⟩
    rw [hns] at hcells hcount
    simp only at hcells hcount
    simp only [Sentence.mk.injEq]
    exact ⟨hcells.symm, hcount.symm⟩
  · right
    rw [f1, f3, f4, f5]
    intro y hy
    rcases Finset.mem_union.mp (hsub hy) with hm | hs
    · exact Finset.mem_union_left _ hm
    · exact Finset.mem_union_right _ (Finset.mem_insert_of_mem hs)

theorem tracks_mark_mine {cell : Int × Int} {count : Int} {st : AIState}
    (h : Tracks cell count st) {x : Int × Int} (hx : x ∉ st.safes) :
    Tracks cell count (st.mark_mine x) := by
  obtain ⟨f1, f2, f3, f4, f5, f6⟩ := mark_mine_state_fields st x
  have hcells : (newSentence (st.mark_mine x) cell count).cells =
      (newSentence st cell count).cells.erase x := by
    rw [newSentence_cells, newSentence_cells, f1, f3, f4, f5]
    ext y
    simp only [Finset.mem_erase, Finset.mem_sdiff, Finset.mem_union,
      Finset.mem_insert]
    tauto
  rcases h with hmem | hsub
  · left
    rw [f6]
    refine List.mem_map.mpr ⟨newSentence st cell count, hmem, ?_⟩
    by_cases hxc : x ∈ (newSentence st cell count).cells
    · have hxn : x ∈ neighbors st.height st.width cell ∧
          x ∉ st.mines := by
        rw [newSentence_cells] at hxc
        obtain ⟨ha, hb⟩ := Finset.mem_sdiff.mp hxc
        exact ⟨ha, fun hm => hb (Finset.mem_union_left _ hm)⟩
      have hcount : (newSentence (st.mark_mine x) cell count).count =
          (newSentence st cell count).count - 1 := by
        unfold newSentence
        rw [f3, f4, f5]
        simp only
        have : neighbors st.height st.width cell ∩ insert x st.mines =
            insert x (neighbors st.height st.width cell ∩ st.mines) := by
          ext y
          simp only [Finset.mem_inter, Finset.mem_insert]
          constructor
          · rintro ⟨hyn, rfl | hym⟩
            · exact Or.inl rfl
            · exact Or.inr ⟨hyn, hym⟩
          · rintro (rfl | ⟨hyn, hym⟩)
            · exact ⟨hxn.1, Or.inl rfl⟩
            · exact ⟨hyn, Or.inr hym⟩
        rw [this, Finset.card_insert_of_not_mem
          (fun hc => hxn.2 (Finset.mem_inter.mp hc).2)]
        push_cast
        ring
      unfold Sentence.mark_mine
      rw [if_pos hxc]
      rcases hns : newSentence (st.mark_mine x) cell count with ⟨cs, n⟩
      rw [hns] at hcells hcount
      simp only at hcells hcount
      simp only [Sentence.mk.injEq]
      exact ⟨hcells.symm, by omega⟩
    · have hxn : x ∉ neighbors st.height st.width cell ∨ x ∈ st.mines := by
        rw [newSentence_cells] at hxc
        by_cases hn : x ∈ neighbors st.height st.width cell
        · right
          by_contra hm
          exact hxc (Finset.mem_sdiff.mpr ⟨hn, by simp [hm, hx]⟩)
        · exact Or.inl hn
      have hinter : neighbors st.height st.width cell ∩ insert x st.mines =
          neighbors st.height st.width cell ∩ st.mines := by
        ext y
        simp only [Finset.mem_inter, Finset.mem_insert]
        constructor
        · rintro ⟨hyn, rfl | hym⟩
          · rcases hxn with hc | hc
            · exact absurd hyn hc
            · exact ⟨hyn, hc⟩
          · exact ⟨hyn, hym⟩
        · rintro ⟨hyn, hym⟩
          exact ⟨hyn, Or.inr hym⟩
      have heq : newSentence (st.mark_mine x) cell count =
          newSentence st cell count := by
        have hcount : (newSentence (st.mark_mine x) cell count).count =
            (newSentence st cell count).count := by
          unfold newSentence
          rw [f3, f4, f5]
          simp only
          rw [hinter]
        have hcells2 : (newSentence (st.mark_mine x) cell count).cells =
            (newSentence st cell count).cells := by
          rw [hcells, Finset.erase_eq_self.mpr hxc]
        rcases hns : newSentence (st.mark_mine x) cell count with ⟨cs, n⟩
        rw [hns] at hcells2 hcount
        rcases hns2 : newSentence st cell count with ⟨cs2, n2⟩
        rw [hns2] at hcells2 hcount
        simp only at hcells2 hcount
        simp only [Sentence.mk.injEq]
        exact ⟨hcells2, hcount⟩
      rw [heq]
      unfold Sentence.mark_mine
      rw [if_neg hxc]
  · right
    rw [f1, f3, f4, f5]
    intro y hy
    rcases Finset.mem_union.mp (hsub hy) with hm | hs
    · exact Finset.mem_union_left _ (Finset.mem_insert_of_mem hm)
    · exact Finset.mem_union_right _ hs

theorem fold_safe_tracks {cell : Int × Int} {count : Int}
    (xs : List (Int × Int)) :
    ∀ st : AIState, Tracks cell count st →
      Tracks cell count (xs.foldl AIState.mark_safe st) := by
  induction xs with
  | nil => exact fun st h => h
  | cons x rest ih =>
    intro st h
    simp only [List.foldl_cons]
    exact ih _ (tracks_mark_safe h x)

theorem fold_mine_tracks {cell : Int × Int} {count : Int}
    (xs : List (Int × Int)) :
    ∀ st : AIState, (∀ x ∈ xs, x ∉ st.safes) → Tracks cell count st →
      Tracks cell count (xs.foldl AIState.mark_mine st) := by
  induction xs with
  | nil => exact fun st _ h => h
  | cons x rest ih =>
    intro st hxs h
    simp only [List.foldl_cons]
    refine ih _ ?_ (tracks_mark_mine h (hxs x (by simp)))
    intro y hy
    rw [(mark_mine_state_fields st x).1]
    exact hxs y (by simp [hy])

theorem concludeSentence_tracks {cell : Int × Int} {count : Int}
    {st : AIState} {s : Sentence} (hs : ∀ x ∈ s.cells, x ∉ st.safes)
    (ht : Tracks cell count st) :
    Tracks cell count (concludeSentence st s) := by
  unfold concludeSentence
  split
  · exact fold_safe_tracks (cellsList s.cells) st ht
  · split
    · exact fold_mine_tracks (cellsList s.cells) st
        (fun x hx => hs x (mem_cellsList.mp hx)) ht
    · exact ht

theorem concludeAt_tracks {cell : Int × Int} {count : Int} {st : AIState}
    (i : Nat) (hd : InvDisj st) (ht : Tracks cell count st) :
    Tracks cell count (concludeAt st i) := by
  unfold concludeAt
  rcases hg : st.knowledge[i]? with _ | s
  · exact ht
  · exact concludeSentence_tracks
      (fun x hx => (hd s (List.getElem?_mem hg) x hx).2) ht

theorem foldl_concludeAt_tracks {cell : Int × Int} {count : Int}
    (l : List Nat) :
    ∀ st : AIState, InvDisj st → InvSM st → Tracks cell count st →
      Tracks cell count (l.foldl concludeAt st) := by
  induction l with
  | nil => exact fun st _ _ h => h
  | cons i rest ih =>
    intro st h1 h2 ht
    simp only [List.foldl_cons]
    obtain ⟨b1, b2, _, _, _, _, _⟩ := concludeAt_props i h1 h2
    exact ih _ b1 b2 (concludeAt_tracks i h1 ht)

theorem cleanup_tracks {cell : Int × Int} {count : Int} {st : AIState}
    (ht : Tracks cell count st) : Tracks cell count (cleanupState st) := by
  have hfields : (cleanupState st).mines = st.mines ∧
      (cleanupState st).safes = st.safes ∧
      (cleanupState st).height = st.height ∧
      (cleanupState st).width = st.width := by
    unfold cleanupState
    exact ⟨rfl, rfl, rfl, rfl⟩
  have hns : newSentence (cleanupState st) cell count =
      newSentence st cell count := by
    unfold newSentence notKnownOf
    rw [hfields.1, hfields.2.1, hfields.2.2.1, hfields.2.2.2]
  rcases ht with hmem | hsub
  · by_cases hc : (newSentence st cell count).cells = ∅
    · right
      rw [hfields.1, hfields.2.1, hfields.2.2.1, hfields.2.2.2]
      rw [newSentence_cells] at hc
      exact (Finset.sdiff_eq_empty_iff_subset.mp hc)
    · left
      rw [hns]
      unfold cleanupState
      simp only [List.mem_filter]
      exact ⟨hmem, by simpa using hc⟩
  · right
    rw [hfields.1, hfields.2.1, hfields.2.2.1, hfields.2.2.2]
    exact hsub

theorem loopStep_tracks {cell : Int × Int} {count : Int} {st : AIState}
    (h1 : InvDisj st) (h2 : InvSM st) (ht : Tracks cell count st) :
    Tracks cell count (loopStep st) := by
  have hc : Tracks cell count (cleanupState (conclusionPass st)) :=
    cleanup_tracks
      (foldl_concludeAt_tracks (List.range st.knowledge.length) st h1 h2 ht)
  unfold loopStep
  rcases hc with hmem | hsub
  · left
    have : newSentence
        { cleanupState (conclusionPass st) with
          knowledge := (cleanupState (conclusionPass st)).knowledge ++
            inferAll (cleanupState (conclusionPass st)).knowledge }
        cell count = newSentence (cleanupState (conclusionPass st))
          cell count := by
      unfold newSentence notKnownOf
      rfl
    rw [this]
    exact List.mem_append_left _ hmem
  · right
    exact hsub

theorem loopRun_tracks {cell : Int × Int} {count : Int} :
    ∀ (fuel : Nat) {st st2 : AIState}, loopRun fuel st = some st2 →
      InvDisj st → InvSM st → Tracks cell count st →
      Tracks cell count st2 := by
  intro fuel
  induction fuel with
  | zero => intro st st2 h; exact absurd h (by simp [loopRun])
  | succ n ih =>
    intro st st2 h h1 h2 ht
    obtain ⟨b1, b2, _, _, _, _, _⟩ := loopStep_props h1 h2
    have hlt : Tracks cell count (loopStep st) := loopStep_tracks h1 h2 ht
    unfold loopRun at h
    dsimp only at h
    split at h
    · simp only [Option.some.injEq] at h
      subst h
      exact hlt
    · exact ih h b1 b2 hlt

theorem add_knowledge_eq (st : AIState) (cell : Int × Int) (count : Int)
    (fuel : Nat) :
    add_knowledge st cell count fuel =
      if notKnownOf (preState st cell) cell = ∅ then some (preState st cell)
      else if newSentence (preState st cell) cell count ∈
          (preState st cell).knowledge then some (preState st cell)
      else loopRun fuel
        { preState st cell with knowledge :=
            (preState st cell).knowledge ++
              [newSentence (preState st cell) cell count] } :=
  rfl

theorem add_knowledge_tracks {st st' : AIState} {cell : Int × Int}
    {count : Int} {fuel : Nat} (h1 : InvDisj st) (h2 : InvSM st)
    (h : add_knowledge st cell count fuel = some st') :
    Tracks cell count st' := by
  obtain ⟨p1, p2⟩ := preState_J h1 h2 cell
  rcases add_knowledge_cases h with ⟨hc, rfl⟩ | ⟨_, hk, rfl⟩ | ⟨hc, hk, hrun⟩
  · right
    refine Finset.sdiff_eq_empty_iff_subset.mp ?_
    rw [← newSentence_cells (preState st cell) cell count]
    exact hc
  · exact Or.inl hk
  · set stL : AIState :=
      { preState st cell with knowledge :=
          (preState st cell).knowledge ++
            [newSentence (preState st cell) cell count] } with hstL
    have hLd : InvDisj stL := by
      intro s hs x hx
      simp only [hstL, List.mem_append, List.mem_singleton] at hs
      rcases hs with hs | rfl
      · exact p1 s hs x hx
      · exact newSentence_disj (preState st cell) cell count x hx
    have hLm : InvSM stL := p2
    have hLt : Tracks cell count stL := by
      left
      have : newSentence stL cell count =
          newSentence (preState st cell) cell count := rfl
      rw [this]
      simp [hstL]
    exact loopRun_tracks fuel hrun hLd hLm hLt

theorem preState_self {st1 : AIState} {cell : Int × Int}
    (hmv : cell ∈ st1.moves_made) (hsf : cell ∈ st1.safes)
    (hkn : ∀ s ∈ st1.knowledge, cell ∉ s.cells) :
    preState st1 cell = st1 := by
  have hmap : st1.knowledge.map (fun s => s.mark_safe cell) =
      st1.knowledge := by
    have h1 : st1.knowledge.map (fun s => s.mark_safe cell) =
        st1.knowledge.map id := by
      refine List.map_congr_left ?_
      intro s hs
      unfold Sentence.mark_safe
      rw [if_neg (hkn s hs)]
      rfl
    rw [h1, List.map_id]
  rcases st1 with ⟨h, w, mm, mi, sa, k⟩
  unfold preState AIState.mark_safe
  simp only [AIState.mk.injEq]
  refine ⟨trivial, trivial, Finset.insert_eq_self.mpr hmv, trivial,
    Finset.insert_eq_self.mpr hsf, hmap⟩

theorem add_knowledge_early {st1 : AIState} {cell : Int × Int}
    {count : Int} (fuel2 : Nat) (hpre : preState st1 cell = st1)
    (ht : Tracks cell count st1) :
    add_knowledge st1 cell count fuel2 = some st1 := by
  rw [add_knowledge_eq, hpre]
  by_cases hnk : notKnownOf st1 cell = ∅
  · rw [if_pos hnk]
  · rw [if_neg hnk]
    have hmem : newSentence st1 cell count ∈ st1.knowledge := by
      rcases ht with hmem | hsub
      · exact hmem
      · exfalso
        apply hnk
        have he : (newSentence st1 cell count).cells = ∅ := by
          rw [newSentence_cells]
          exact Finset.sdiff_eq_empty_iff_subset.mpr hsub
        exact he
    rw [if_pos hmem]

/-- Claim C6: on every reachable knowledge-base state, calling
`add_knowledge` a second time with the same (cell, count) pair as the
immediately preceding completed call returns (with any fuel, i.e. the loop
is not even entered) a state with the same mines set, the same safes set,
and the same knowledge collection size — in fact the identical state. -/
theorem C6_add_knowledge_idempotent (st st1 : AIState) (cell : Int × Int)
    (count : Int) (fuel : Nat) (hr : MSReachable st)
    (h : add_knowledge st cell count fuel = some st1) :
    ∀ fuel2 : Nat, ∃ st2,
      add_knowledge st1 cell count fuel2 = some st2 ∧
      st2.mines = st1.mines ∧ st2.safes = st1.safes ∧
      st2.knowledge.length = st1.knowledge.length := by
  obtain ⟨hd, hm⟩ := MSReachable_J hr
  obtain ⟨d1, d2, dmv, dsf, _, _⟩ := add_knowledge_J hd hm h
  have ht : Tracks cell count st1 := add_knowledge_tracks hd hm h
  have hkn : ∀ s ∈ st1.knowledge, cell ∉ s.cells :=
    fun s hs hc => (d1 s hs cell hc).2 dsf
  have hpre : preState st1 cell = st1 := preState_self dmv dsf hkn
  intro fuel2
  exact ⟨st1, add_knowledge_early fuel2 hpre ht, rfl, rfl, rfl⟩

/-- Witness for C6: probing (0,0) with count 1 on a fresh AI and then
repeating the identical call. -/
theorem C6_add_knowledge_idempotent_witness :
    ∃ st2, add_knowledge dupState (0, 0) 1 3 = some st2 ∧
      st2.mines = dupState.mines ∧ st2.safes = dupState.safes ∧
      st2.knowledge.length = dupState.knowledge.length :=
  C6_add_knowledge_idempotent freshAI dupState (0, 0) 1 2
    (MSReachable.init 8 8)
    (@eq_some_of_checks _ freshAI _ (by decide) (by decide)) 3

/-- Cell set of the two wide seed sentences of the diverging scenario. -/
def Tcells : Finset (Int × Int) := {(0, 1), (0, 3), (5, 5), (5, 6)}

/-- Cell set of the probe-contributed sentence of the diverging scenario. -/
def Acells : Finset (Int × Int) := {(0, 1), (0, 3)}

/-- Cell set of the sentences the subset inference derives from them. -/
def Bcells : Finset (Int × Int) := {(5, 5), (5, 6)}

/-- The sentence shapes that occur while the diverging scenario runs:
empty-cell sentences, the two seed sentences over `Tcells` with counts 6
and 8, and sentences over `Acells` or `Bcells` with odd counts. None of
the nonempty shapes ever satisfies a resolution rule (count zero or count
equal to the cell count), so the conclusion step never marks anything. -/
def goodShape (s : Sentence) : Prop :=
  s.cells = ∅ ∨
  (s.cells = Tcells ∧ (s.count = 6 ∨ s.count = 8)) ∨
  (s.cells = Acells ∧ s.count % 2 = 1) ∨
  (s.cells = Bcells ∧ s.count % 2 = 1)

theorem conclude_noop {st : AIState} {s : Sentence} (h : goodShape s) :
    concludeSentence st s = st := by
  unfold concludeSentence
  rcases h with he | ⟨hc, h68⟩ | ⟨hc, hodd⟩ | ⟨hc, hodd⟩
  · split
    · rw [he, show cellsList (∅ : Finset (Int × Int)) = [] from rfl]
      rfl
    · rename_i h0
      rw [if_neg]
      rw [he]
      intro hcard
      simp at hcard
      exact h0 hcard.symm
  · rw [if_neg, if_neg]
    · rw [hc]
      rcases h68 with h6 | h6 <;> rw [h6] <;> decide
    · rcases h68 with h6 | h6 <;> rw [h6] <;> decide
  · rw [if_neg, if_neg]
    · rw [hc]
      intro hcard
      rw [show (Acells.card : Int) = 2 from rfl] at hcard
      omega
    · intro h0
      rw [h0] at hodd
      simp at hodd
  · rw [if_neg, if_neg]
    · rw [hc]
      intro hcard
      rw [show (Bcells.card : Int) = 2 from rfl] at hcard
      omega
    · intro h0
      rw [h0] at hodd
      simp at hodd

theorem foldl_fixed {α : Type} {f : AIState → α → AIState} {st : AIState} :
    ∀ {l : List α}, (∀ i ∈ l, f st i = st) → l.foldl f st = st := by
  intro l
  induction l with
  | nil => intro _; rfl
  | cons i rest ih =>
    intro h
    simp only [List.foldl_cons, h i (by simp)]
    exact ih (fun j hj => h j (by simp [hj]))

theorem conclusionPass_noop {st : AIState}
    (h : ∀ s ∈ st.knowledge, goodShape s) : conclusionPass st = st := by
  unfold conclusionPass
  refine foldl_fixed ?_
  intro i _
  unfold concludeAt
  rcases hg : st.knowledge[i]? with _ | s
  · rfl
  · exact conclude_noop (h s (List.getElem?_mem hg))

/-- The inference attempted for one ordered pair of knowledge positions. -/
def inferStepF (k : List Sentence)
    (q : (Nat × Sentence) × (Nat × Sentence)) : Option Sentence :=
  if q.1.1 = q.2.1 then none else make_inference k q.1.2 q.2.2

theorem inferAll_eq_filterMap (k : List Sentence) :
    inferAll k = (sentencePairs k).filterMap (inferStepF k) :=
  rfl

/-- Bool test: the two positions differ but the cell sets coincide. -/
def eqCellPair (q : (Nat × Sentence) × (Nat × Sentence)) : Bool :=
  decide (q.1.1 ≠ q.2.1) && decide (q.1.2.cells = q.2.2.cells)

/-- Number of ordered distinct-position pairs with equal cell sets. -/
def eqPairs (k : List Sentence) : Nat :=
  (sentencePairs k).countP eqCellPair

theorem length_filterMap_eq_countP {α β : Type} (f : α → Option β) :
    ∀ l : List α, (l.filterMap f).length =
      l.countP (fun x => (f x).isSome) := by
  intro l
  induction l with
  | nil => rfl
  | cons x rest ih =>
    rcases hf : f x with _ | y
    · rw [List.filterMap_cons_none hf, List.countP_cons_of_neg _ _
        (by simp [hf])]
      exact ih
    · rw [List.filterMap_cons_some hf, List.countP_cons_of_pos _ _
        (by simp [hf])]
      simp only [List.length_cons, ih]

theorem countP_filterMap_eq {α β : Type} (f : α → Option β) (q : β → Bool) :
    ∀ l : List α, (l.filterMap f).countP q =
      l.countP (fun x => ((f x).map q).getD false) := by
  intro l
  induction l with
  | nil => rfl
  | cons x rest ih =>
    rcases hf : f x with _ | y
    · rw [List.filterMap_cons_none hf, List.countP_cons_of_neg _ _
        (by simp [hf])]
      exact ih
    · rw [List.filterMap_cons_some hf]
      by_cases hq : q y = true
      · rw [List.countP_cons_of_pos _ _ hq, List.countP_cons_of_pos _ _
          (by simp [hf, hq])]
        simp only [ih]
      · rw [List.countP_cons_of_neg _ _ hq, List.countP_cons_of_neg _ _
          (by simp [hf]; simpa using hq)]
        exact ih

theorem countP_strict {α : Type} {p q : α → Bool} :
    ∀ {l : List α}, (∀ x ∈ l, p x = true → q x = true) →
      ∀ {x0 : α}, x0 ∈ l → q x0 = true → ¬ p x0 = true →
      l.countP p + 1 ≤ l.countP q := by
  intro l
  induction l with
  | nil => intro _ x0 h; simp at h
  | cons y rest ih =>
    intro hpq x0 hx0 hq hp
    rcases List.mem_cons.mp hx0 with rfl | hx0
    · rw [List.countP_cons_of_pos _ _ hq, List.countP_cons_of_neg _ _ hp]
      have : rest.countP p ≤ rest.countP q :=
        List.countP_mono_left (fun x hx => hpq x (by simp [hx]))
      omega
    · by_cases hpy : p y = true
      · rw [List.countP_cons_of_pos _ _ hpy, List.countP_cons_of_pos _ _
          (hpq y (by simp) hpy)]
        have := ih (fun x hx => hpq x (by simp [hx])) hx0 hq hp
        omega
      · rw [List.countP_cons_of_neg _ _ hpy]
        have := ih (fun x hx => hpq x (by simp [hx])) hx0 hq hp
        by_cases hqy : q y = true
        · rw [List.countP_cons_of_pos _ _ hqy]
          omega
        · rw [List.countP_cons_of_neg _ _ hqy]
          omega

theorem flatMap_sublist {α β : Type} {f g : α → List β}
    (hfg : ∀ a, (f a).Sublist (g a)) :
    ∀ {l1 l2 : List α}, l1.Sublist l2 →
      (l1.flatMap f).Sublist (l2.flatMap g) := by
  intro l1 l2 h
  induction h with
  | slnil => simp
  | cons a h ih =>
    rw [List.flatMap_cons]
    exact ih.trans (List.sublist_append_right _ _)
  | cons₂ a h ih =>
    rw [List.flatMap_cons, List.flatMap_cons]
    exact List.Sublist.append (hfg a) ih

theorem sentencePairs_sublist (k m : List Sentence) :
    (sentencePairs k).Sublist (sentencePairs (k ++ m)) := by
  unfold sentencePairs
  have henum : k.enum.Sublist ((k ++ m).enum) := by
    rw [List.enum_append]
    exact List.sublist_append_left _ _
  exact flatMap_sublist
    (fun p1 => List.Sublist.map _ henum)
    henum

theorem eqPairs_mono (k m : List Sentence) :
    eqPairs k ≤ eqPairs (k ++ m) :=
  List.Sublist.countP_le _ (sentencePairs_sublist k m)

theorem derived_empty_iff {k : List Sentence} {s1 s2 ns : Sentence}
    (h : make_inference k s1 s2 = some ns) :
    ns.cells = ∅ ↔ s1.cells = s2.cells := by
  obtain ⟨_, t1, t2, hor, hsub, hns⟩ := make_inference_some_spec h
  have hcells : ns.cells = t2.cells \ t1.cells := by rw [hns]
  constructor
  · intro he
    rw [hcells] at he
    have h21 : t2.cells ⊆ t1.cells := Finset.sdiff_eq_empty_iff_subset.mp he
    have : t1.cells = t2.cells := Finset.Subset.antisymm hsub h21
    rcases hor with ⟨rfl, rfl⟩ | ⟨rfl, rfl⟩
    · exact this
    · exact this.symm
  · intro he
    rw [hcells]
    have : t1.cells = t2.cells := by
      rcases hor with ⟨rfl, rfl⟩ | ⟨rfl, rfl⟩
      · exact he
      · exact he.symm
    rw [this, Finset.sdiff_self]

theorem derived_shape {k : List Sentence}
    (hk : ∀ s ∈ k, goodShape s ∧ s.cells ≠ ∅) {s1 s2 ns : Sentence}
    (h1 : s1 ∈ k) (h2 : s2 ∈ k)
    (h : make_inference k s1 s2 = some ns) : goodShape ns := by
  obtain ⟨_, t1, t2, hor, hsub, hns⟩ := make_inference_some_spec h
  have ht1 : goodShape t1 ∧ t1.cells ≠ ∅ := by
    rcases hor with ⟨rfl, rfl⟩ | ⟨rfl, rfl⟩
    · exact hk _ h1
    · exact hk _ h2
  have ht2 : goodShape t2 ∧ t2.cells ≠ ∅ := by
    rcases hor with ⟨rfl, rfl⟩ | ⟨rfl, rfl⟩
    · exact hk _ h2
    · exact hk _ h1
  clear hor h1 h2 h
  subst hns
  rcases ht1 with ⟨e1 | ⟨c1, n1⟩ | ⟨c1, n1⟩ | ⟨c1, n1⟩, hne1⟩
  · exact absurd e1 hne1
  all_goals rcases ht2 with ⟨e2 | ⟨c2, n2⟩ | ⟨c2, n2⟩ | ⟨c2, n2⟩, hne2⟩
  all_goals first
    | exact absurd e2 hne2
    | (left
       show t2.cells \ t1.cells = ∅
       rw [c1, c2, Finset.sdiff_self])
    | (rw [c1, c2] at hsub
       exact absurd hsub (by decide))
    | (right; right; right
       refine ⟨?_, ?_⟩
       · show t2.cells \ t1.cells = Bcells
         rw [c1, c2]
         decide
       · show (t2.count - t1.count) % 2 = 1
         rcases n2 with h | h <;> omega)
    | (right; right; left
       refine ⟨?_, ?_⟩
       · show t2.cells \ t1.cells = Acells
         rw [c1, c2]
         decide
       · show (t2.count - t1.count) % 2 = 1
         rcases n2 with h | h <;> omega)

theorem make_inference_yes {k : List Sentence} {s1 s2 : Sentence}
    (hcard : ¬ s1.cells.card > s2.cells.card)
    (hsub : s1.cells ⊆ s2.cells)
    (hnot : Sentence.mk (s2.cells \ s1.cells) (s2.count - s1.count) ∉ k) :
    make_inference k s1 s2 =
      some (Sentence.mk (s2.cells \ s1.cells) (s2.count - s1.count)) := by
  unfold make_inference
  rw [if_neg hcard]
  dsimp only
  rw [if_pos hsub, if_neg hnot]

theorem eqpair_isSome {k : List Sentence} (hk : ∀ s ∈ k, s.cells ≠ ∅)
    {q : (Nat × Sentence) × (Nat × Sentence)}
    (he : eqCellPair q = true) : (inferStepF k q).isSome = true := by
  simp only [eqCellPair, Bool.and_eq_true, decide_eq_true_eq] at he
  obtain ⟨hne, hceq⟩ := he
  have hnot : Sentence.mk (q.2.2.cells \ q.1.2.cells)
      (q.2.2.count - q.1.2.count) ∉ k := by
    intro hin
    apply hk _ hin
    show q.2.2.cells \ q.1.2.cells = ∅
    rw [hceq, Finset.sdiff_self]
  unfold inferStepF
  rw [if_neg hne]
  rw [make_inference_yes (by rw [hceq]; exact lt_irrefl _)
    (by rw [hceq]) hnot]
  rfl

theorem inferAll_empties_le {k : List Sentence} :
    (inferAll k).countP (fun s => decide (s.cells = ∅)) ≤ eqPairs k := by
  rw [inferAll_eq_filterMap, countP_filterMap_eq]
  unfold eqPairs
  refine List.countP_mono_left ?_
  intro q _ hde
  rcases hs : inferStepF k q with _ | ns
  · rw [hs] at hde
    simp at hde
  · rw [hs] at hde
    simp only [Option.map_some', Option.getD_some] at hde
    have hempty : ns.cells = ∅ := of_decide_eq_true hde
    have hij : q.1.1 ≠ q.2.1 := by
      intro h
      unfold inferStepF at hs
      rw [if_pos h] at hs
      exact absurd hs (by simp)
    have hmk : make_inference k q.1.2 q.2.2 = some ns := by
      unfold inferStepF at hs
      rwa [if_neg hij] at hs
    have hceq := (derived_empty_iff hmk).mp hempty
    unfold eqCellPair
    simp only [Bool.and_eq_true]
    exact ⟨decide_eq_true hij, decide_eq_true hceq⟩

theorem special_pair {k : List Sentence}
    (_hk : ∀ s ∈ k, goodShape s ∧ s.cells ≠ ∅)
    (hT6 : Sentence.mk Tcells 6 ∈ k) (hT8 : Sentence.mk Tcells 8 ∈ k)
    (hA : ∃ a : Int, Sentence.mk Acells a ∈ k) :
    ∃ q ∈ sentencePairs k, eqCellPair q = false ∧
      (inferStepF k q).isSome = true := by
  obtain ⟨a, ha⟩ := hA
  set AC : List Int := k.filterMap
    (fun s => if s.cells = Acells then some s.count else none) with hAC
  have haAC : a ∈ AC := by
    rw [hAC]
    exact List.mem_filterMap.mpr ⟨_, ha, by rw [if_pos rfl]⟩
  have hne : AC.toFinset.Nonempty := ⟨a, List.mem_toFinset.mpr haAC⟩
  set m : Int := AC.toFinset.max' hne with hm
  have hmax : ∀ b ∈ AC, b ≤ m := fun b hb =>
    AC.toFinset.le_max' b (List.mem_toFinset.mpr hb)
  have hmA : Sentence.mk Acells m ∈ k := by
    have hmem : m ∈ AC := List.mem_toFinset.mp (AC.toFinset.max'_mem hne)
    rw [hAC] at hmem
    obtain ⟨s, hs, hsome⟩ := List.mem_filterMap.mp hmem
    rcases s with ⟨cs, cn⟩
    split at hsome
    · rename_i hc
      simp only [Option.some.injEq] at hsome
      have hcs : cs = Acells := hc
      have hcn : cn = m := hsome
      subst hcs
      subst hcn
      exact hs
    · exact absurd hsome (by simp)
  have hnot2 : Sentence.mk Acells (m + 2) ∉ k := by
    intro hm2
    have hin : m + 2 ∈ AC := by
      rw [hAC]
      exact List.mem_filterMap.mpr ⟨_, hm2, by rw [if_pos rfl]⟩
    have := hmax _ hin
    omega
  by_cases hB : Sentence.mk Bcells (6 - m) ∈ k
  · obtain ⟨i, hi⟩ := List.getElem?_of_mem hB
    obtain ⟨j, hj⟩ := List.getElem?_of_mem hT8
    have hij : i ≠ j := by
      intro hh
      rw [hh, hj] at hi
      have hBT : Tcells = Bcells := congrArg Sentence.cells (Option.some.inj hi)
      exact absurd hBT (by decide)
    refine ⟨((i, Sentence.mk Bcells (6 - m)), (j, Sentence.mk Tcells 8)),
      mem_sentencePairs.mpr ⟨List.mem_enum_iff_getElem?.mpr hi,
        List.mem_enum_iff_getElem?.mpr hj⟩, ?_, ?_⟩
    · show (decide (i ≠ j) && decide (Bcells = Tcells)) = false
      rw [show decide (Bcells = Tcells) = false from by decide]
      exact Bool.and_false _
    · have hnot : Sentence.mk ((Sentence.mk Tcells 8).cells \
          (Sentence.mk Bcells (6 - m)).cells)
          ((Sentence.mk Tcells 8).count -
            (Sentence.mk Bcells (6 - m)).count) ∉ k := by
        show Sentence.mk (Tcells \ Bcells) (8 - (6 - m)) ∉ k
        have heq : Sentence.mk (Tcells \ Bcells) (8 - (6 - m)) =
            Sentence.mk Acells (m + 2) := by
          rw [show Tcells \ Bcells = Acells from by decide]
          rw [show (8 : Int) - (6 - m) = m + 2 from by ring]
        rw [heq]
        exact hnot2
      unfold inferStepF
      dsimp only
      rw [if_neg hij]
      rw [make_inference_yes (show ¬ Bcells.card > Tcells.card from by decide)
        (show Bcells ⊆ Tcells from by decide) hnot]
      rfl
  · obtain ⟨i, hi⟩ := List.getElem?_of_mem hmA
    obtain ⟨j, hj⟩ := List.getElem?_of_mem hT6
    have hij : i ≠ j := by
      intro hh
      rw [hh, hj] at hi
      have hAT : Tcells = Acells := congrArg Sentence.cells (Option.some.inj hi)
      exact absurd hAT (by decide)
    refine ⟨((i, Sentence.mk Acells m), (j, Sentence.mk Tcells 6)),
      mem_sentencePairs.mpr ⟨List.mem_enum_iff_getElem?.mpr hi,
        List.mem_enum_iff_getElem?.mpr hj⟩, ?_, ?_⟩
    · show (decide (i ≠ j) && decide (Acells = Tcells)) = false
      rw [show decide (Acells = Tcells) = false from by decide]
      exact Bool.and_false _
    · have hnot : Sentence.mk ((Sentence.mk Tcells 6).cells \
          (Sentence.mk Acells m).cells)
          ((Sentence.mk Tcells 6).count -
            (Sentence.mk Acells m).count) ∉ k := by
        show Sentence.mk (Tcells \ Acells) (6 - m) ∉ k
        have heq : Sentence.mk (Tcells \ Acells) (6 - m) =
            Sentence.mk Bcells (6 - m) := by
          rw [show Tcells \ Acells = Bcells from by decide]
        rw [heq]
        exact hB
      unfold inferStepF
      dsimp only
      rw [if_neg hij]
      rw [make_inference_yes (show ¬ Acells.card > Tcells.card from by decide)
        (show Acells ⊆ Tcells from by decide) hnot]
      rfl

theorem inferAll_grows {k : List Sentence}
    (hk : ∀ s ∈ k, goodShape s ∧ s.cells ≠ ∅)
    (hT6 : Sentence.mk Tcells 6 ∈ k) (hT8 : Sentence.mk Tcells 8 ∈ k)
    (hA : ∃ a : Int, Sentence.mk Acells a ∈ k) :
    eqPairs k + 1 ≤ (inferAll k).length := by
  obtain ⟨q0, hq0, hq0f, hq0s⟩ := special_pair hk hT6 hT8 hA
  rw [inferAll_eq_filterMap, length_filterMap_eq_countP]
  unfold eqPairs
  refine countP_strict ?_ hq0 hq0s ?_
  · intro q _ hq
    exact eqpair_isSome (fun s hs => (hk s hs).2) hq
  · rw [hq0f]
    exact Bool.false_ne_true

/-- The invariant that keeps the diverging scenario running forever: every
sentence has one of the recurring shapes, both `Tcells` seed sentences and
at least one `Acells` sentence are present, and the empty sentences are no
more numerous than the ordered equal-cell pairs among the nonempty ones. -/
def C2Inv (st : AIState) : Prop :=
  (∀ s ∈ st.knowledge, goodShape s) ∧
  Sentence.mk Tcells 6 ∈ st.knowledge ∧
  Sentence.mk Tcells 8 ∈ st.knowledge ∧
  (∃ a : Int, Sentence.mk Acells a ∈ st.knowledge) ∧
  st.knowledge.countP (fun s => decide (s.cells = ∅)) ≤
    eqPairs (st.knowledge.filter (fun s => s.cells ≠ ∅))

theorem loopStep_C2 {st : AIState} (h : C2Inv st) :
    C2Inv (loopStep st) ∧
    (loopStep st).mines = st.mines ∧
    (loopStep st).safes = st.safes ∧
    st.knowledge.length + 1 ≤ (loopStep st).knowledge.length := by
  obtain ⟨hGood, hT6, hT8, ⟨a, haA⟩, hE⟩ := h
  have hcp : conclusionPass st = st := conclusionPass_noop hGood
  set K1 := st.knowledge.filter (fun s => s.cells ≠ ∅) with hK1
  have hkeq : (loopStep st).knowledge = K1 ++ inferAll K1 := by
    unfold loopStep cleanupState
    rw [hcp]
  have hmines : (loopStep st).mines = st.mines := by
    unfold loopStep cleanupState
    rw [hcp]
  have hsafes : (loopStep st).safes = st.safes := by
    unfold loopStep cleanupState
    rw [hcp]
  have hK1good : ∀ s ∈ K1, goodShape s ∧ s.cells ≠ ∅ := by
    intro s hs
    rw [hK1] at hs
    obtain ⟨hmem, hp⟩ := List.mem_filter.mp hs
    exact ⟨hGood s hmem, of_decide_eq_true hp⟩
  have hT6k : Sentence.mk Tcells 6 ∈ K1 := by
    rw [hK1]
    exact List.mem_filter.mpr ⟨hT6, by decide⟩
  have hT8k : Sentence.mk Tcells 8 ∈ K1 := by
    rw [hK1]
    exact List.mem_filter.mpr ⟨hT8, by decide⟩
  have hAk : Sentence.mk Acells a ∈ K1 := by
    rw [hK1]
    refine List.mem_filter.mpr ⟨haA, decide_eq_true ?_⟩
    intro hh
    exact absurd (show Acells = ∅ from hh) (by decide)
  have hGood2 : ∀ s ∈ (loopStep st).knowledge, goodShape s := by
    intro s hs
    rw [hkeq] at hs
    rcases List.mem_append.mp hs with hs | hs
    · exact (hK1good s hs).1
    · unfold inferAll at hs
      obtain ⟨q, hq, hmk⟩ := List.mem_filterMap.mp hs
      obtain ⟨h1, h2⟩ := mem_sentencePairs.mp hq
      have hm1 : q.1.2 ∈ K1 :=
        List.getElem?_mem (List.mem_enum_iff_getElem?.mp h1)
      have hm2 : q.2.2 ∈ K1 :=
        List.getElem?_mem (List.mem_enum_iff_getElem?.mp h2)
      split at hmk
      · exact absurd hmk (by simp)
      · exact derived_shape hK1good hm1 hm2 hmk
  have hfilK1 : K1.filter (fun s => s.cells ≠ ∅) = K1 :=
    List.filter_eq_self.mpr (fun s hs => decide_eq_true (hK1good s hs).2)
  have hzero : K1.countP (fun s => decide (s.cells = ∅)) = 0 :=
    List.countP_eq_zero.mpr
      (fun s hs hp => (hK1good s hs).2 (of_decide_eq_true hp))
  have hcnt2 : (loopStep st).knowledge.countP
      (fun s => decide (s.cells = ∅)) ≤
      eqPairs ((loopStep st).knowledge.filter (fun s => s.cells ≠ ∅)) := by
    rw [hkeq, List.countP_append, List.filter_append, hfilK1]
    have h1 := @inferAll_empties_le K1
    have h2 := eqPairs_mono K1 ((inferAll K1).filter (fun s => s.cells ≠ ∅))
    omega
  have hgrow : eqPairs K1 + 1 ≤ (inferAll K1).length :=
    inferAll_grows hK1good hT6k hT8k ⟨a, hAk⟩
  have hcon : st.knowledge.countP (fun s => decide (s.cells ≠ ∅)) =
      K1.length := by
    rw [hK1, ← List.countP_eq_length_filter]
  have hsplit : st.knowledge.length =
      st.knowledge.countP (fun s => decide (s.cells = ∅)) +
      st.knowledge.countP (fun s => decide (s.cells ≠ ∅)) := by
    rw [List.length_eq_countP_add_countP (fun s => decide (s.cells = ∅))]
    congr 1
    exact List.countP_congr (fun s _ => by simp [decide_not])
  have hlen : st.knowledge.length + 1 ≤ (loopStep st).knowledge.length := by
    rw [hkeq, List.length_append]
    omega
  refine ⟨⟨hGood2, ?_, ?_, ⟨a, ?_⟩, hcnt2⟩, hmines, hsafes, hlen⟩
  · rw [hkeq]
    exact List.mem_append_left _ hT6k
  · rw [hkeq]
    exact List.mem_append_left _ hT8k
  · rw [hkeq]
    exact List.mem_append_left _ hAk

theorem loopRun_C2_none :
    ∀ (fuel : Nat) (st : AIState), C2Inv st → loopRun fuel st = none := by
  intro fuel
  induction fuel with
  | zero =>
    intro st _
    rfl
  | succ n ih =>
    intro st h
    obtain ⟨hinv, _, _, hlen⟩ := loopStep_C2 h
    have hne : ¬ triple st = triple (loopStep st) := by
      intro heq
      have h3 : st.knowledge.length = (loopStep st).knowledge.length :=
        congrArg (fun t : Nat × Nat × Nat => t.2.2) heq
      omega
    show (if triple st = triple (loopStep st) then some (loopStep st)
      else loopRun n (loopStep st)) = none
    rw [if_neg hne]
    exact ih (loopStep st) hinv

/-- An AI state whose knowledge the fixpoint loop can never stabilise:
three cells are known safe and two sentences over the same four cells
carry counts 6 and 8 (counts the code accepts without validation). -/
def seedC2 : AIState :=
  ⟨8, 8, ∅, ∅, {(1, 1), (1, 2), (1, 3)},
    [⟨Tcells, 6⟩, ⟨Tcells, 8⟩]⟩

/-- The state entering the fixpoint loop when `seedC2` is probed at
`(0, 2)` with count 3. -/
def entryC2 : AIState :=
  ⟨8, 8, {(0, 2)}, ∅, {(0, 2), (1, 1), (1, 2), (1, 3)},
    [⟨Tcells, 6⟩, ⟨Tcells, 8⟩, ⟨Acells, 3⟩]⟩

theorem entryC2_inv : C2Inv entryC2 := by
  refine ⟨?_, by decide, by decide, ⟨3, by decide⟩, by decide⟩
  intro s hs
  have hs2 : s ∈ [Sentence.mk Tcells 6, Sentence.mk Tcells 8,
      Sentence.mk Acells 3] := hs
  have hcases : s = Sentence.mk Tcells 6 ∨ s = Sentence.mk Tcells 8 ∨
      s = Sentence.mk Acells 3 := by
    simpa using hs2
  rcases hcases with rfl | rfl | rfl
  · exact Or.inr (Or.inl ⟨rfl, Or.inl rfl⟩)
  · exact Or.inr (Or.inl ⟨rfl, Or.inr rfl⟩)
  · exact Or.inr (Or.inr (Or.inl ⟨rfl, by decide⟩))

/-- C2: REFUTED. The spec claims the internal fixpoint loop of
`add_knowledge` terminates after finitely many passes for every
knowledge-base state and every `(cell, count)` input. It does not: from
the state `seedC2` (two sentences over the same four cells with counts 6
and 8, three known safe cells), probing cell `(0, 2)` with count 3 makes
every pass of the loop derive at least one sentence that is not yet in
the knowledge list, so the list grows strictly on every pass, the
`len(self.knowledge) == prev_knowledge` exit test never succeeds, and no
amount of fuel makes the loop return. -/
theorem C2_add_knowledge_diverges (fuel : Nat) :
    add_knowledge seedC2 (0, 2) 3 fuel = none := by
  rw [add_knowledge_eq]
  have hc1 : ¬ notKnownOf (preState seedC2 (0, 2)) (0, 2) = ∅ := by decide
  have hc2 : ¬ newSentence (preState seedC2 (0, 2)) (0, 2) 3 ∈
      (preState seedC2 (0, 2)).knowledge := by decide
  rw [if_neg hc1, if_neg hc2]
  rw [show ({ preState seedC2 (0, 2) with knowledge :=
      (preState seedC2 (0, 2)).knowledge ++
        [newSentence (preState seedC2 (0, 2)) (0, 2) 3] } : AIState) =
    entryC2 from by decide]
  exact loopRun_C2_none fuel entryC2 entryC2_inv

end Minesweeper
